import Mathlib

set_option maxRecDepth 4000

/-!
Verification of the calculator in `src/calculator/calculator00.cpp`.

Shallow embedding conventions:
* C++ `double` is modelled as the exact rational numbers `ℚ` (the program only
  combines literals with `+ - * / %`, and the spec states exact expected
  values such as `7%3 = 1.0`); C's `fmod` becomes `fmodQ`, the truncated
  remainder on `ℚ`.
* `cin` is modelled as a `List Char` carried inside the token stream state;
  `cin >> ch` skips whitespace and pops a character, `cin >> val` (reading a
  floating-point literal) is modelled by `lexNumber` (digits, an optional dot
  and fraction digits; exponents are not modelled, no claim mentions them).
  Reaching the end of the input where the program would read from a failed
  stream is modelled as an error result.
* `error(s1, s2)` in the source throws `runtime_error(s1 + s2)`; failures are
  modelled by the `err` constructor carrying the message and the state of the
  globals at the point of the throw (C++ exceptions do not roll back global
  state).
* The pushback slot (`bool full; Token buffer`) is modelled as
  `Option Token`: when `full` is false the buffer's content is never observed
  by the program, so `none` stands for `full = false`.
* The mutually recursive parsing functions are total via a fuel parameter
  (`run` dispatches on a `Mode` so the recursion is structural on the fuel and
  the kernel can evaluate concrete runs); the C++ functions are the wrappers
  `primary`, `term`, `expression`, `statement`, `declaration` below.
-/

/-- Kind tag of a number token (`const char number = '8'`). -/
def number : Char := '8'

/-- Kind tag of the quit token (`const char quit = 'q'`). -/
def quit : Char := 'q'

/-- Kind tag of the print token (`const char print = ';'`). -/
def print : Char := ';'

/-- Kind tag of an identifier token (`const char name = 'a'`). -/
def name : Char := 'a'

/-- Kind tag of the declaration keyword token (`const char let = 'L'`; `let`
is a Lean keyword, hence the name `letk`). -/
def letk : Char := 'L'

/-- The declaration keyword (`const string declkey = "let"`). -/
def declkey : String := "let"

/-- The `Token` class: a kind, a numeric payload and a text payload. The C++
constructors default `value` to `0.0` and `name` to the empty string. -/
structure Token where
  kind : Char
  value : ℚ
  name : String
deriving DecidableEq

/-- The constructor `Token(char k)`. -/
def Token.ofKind (k : Char) : Token := ⟨k, 0, ""⟩

/-- A `(name, value)` pair of the variable table. -/
structure Variable where
  name : String
  value : ℚ
deriving DecidableEq

/-- Truncation of a rational toward zero, as C truncates when computing
`fmod`. -/
def ratTrunc (q : ℚ) : ℤ := q.num.tdiv q.den

/-- The C library function `fmod` on the rational model of `double`:
`fmod(x, y) = x - trunc(x / y) * y`. -/
def fmodQ (x y : ℚ) : ℚ := x - (ratTrunc (x / y) : ℚ) * y

/-- The function `get_value`: return the value of the variable named `s`,
or throw `error("get: undefined variable ", s)`. Reads the table only. -/
def get_value (s : String) : List Variable → Except String ℚ
  | [] => .error ("get: undefined variable " ++ s)
  | v :: vs => if v.name = s then .ok v.value else get_value s vs

/-- The function `set_value`: the source iterates over `var_table`, but its
`error` call stands inside the loop body (after the `if`), so the first
entry whose name differs from `s` already throws, and an empty table makes
the function return without doing anything. The pair returned is the
result (or error message) together with the table after the call. -/
def set_value (s : String) (d : ℚ) :
    List Variable → Except String Unit × List Variable
  | [] => (.ok (), [])
  | v :: vs =>
    if v.name = s then (.ok (), { v with value := d } :: vs)
    else (.error ("set: undefined variable " ++ s), v :: vs)

/-- The function `is_declared`: is `var` the name of some entry of the
table. -/
def is_declared (var : String) : List Variable → Bool
  | [] => false
  | v :: vs => if v.name = var then true else is_declared var vs

/-- The function `define_name`: add `{var, val}` to the table unless `var`
is already declared, in which case `error(var, " declared twice")` is
thrown. The pair returned is the result together with the table after the
call. -/
def define_name (var : String) (val : ℚ) (tbl : List Variable) :
    Except String ℚ × List Variable :=
  if is_declared var tbl then (.error (var ++ " declared twice"), tbl)
  else (.ok val, tbl ++ [⟨var, val⟩])

/-- Whitespace as skipped by `cin >> ch` (the classic-locale `isspace`). -/
def isStreamWs (c : Char) : Bool :=
  c = ' ' || c = '\t' || c = '\n' || c = '\r' || c = '\x0b' || c = '\x0c'

/-- The single-character tokens of the `switch` in `Token_stream::get`:
print, quit, `=`, parentheses and the five operators. -/
def opChars : List Char := [';', 'q', '=', '(', ')', '+', '-', '*', '/', '%']

/-- Read a maximal run of decimal digits, extending the accumulator `acc`
and the digit count `k`; returns value, count and the rest of the input. -/
def readNat : List Char → Nat → Nat → Nat × Nat × List Char
  | [], acc, k => (acc, k, [])
  | c :: cs, acc, k =>
    if c.isDigit then readNat cs (10 * acc + (c.toNat - 48)) (k + 1)
    else (acc, k, c :: cs)

/-- The extraction `cin >> val` for a `double`, as reached from `get` (the
first character is a digit or a dot): an integer part, optionally a dot and
a fraction part; at least one digit in total. Returns `none` when the text
is just a dot (the C++ stream would enter a failed state there). -/
def lexNumber (cs : List Char) : Option (ℚ × List Char) :=
  let p := readNat cs 0 0
  match p.2.2 with
  | '.' :: cs2 =>
    let q := readNat cs2 0 0
    if p.2.1 = 0 ∧ q.2.1 = 0 then none
    else some ((p.1 : ℚ) + (q.1 : ℚ) / 10 ^ q.2.1, q.2.2)
  | _ => if p.2.1 = 0 then none else some ((p.1 : ℚ), p.2.2)

/-- The classification body of `Token_stream::get` (everything after the
buffer check): skip whitespace, read one character and build a token.
Returns the token (or the message of the thrown error) and the remaining
character input. -/
def lexOne (input : List Char) : Except String Token × List Char :=
  match input.dropWhile isStreamWs with
  | [] => (.error "end of input", [])
  | ch :: cs =>
    if opChars.contains ch then (.ok (Token.ofKind ch), cs)
    else if ch.isDigit || ch = '.' then
      match lexNumber (ch :: cs) with
      | some (v, cs2) => (.ok ⟨number, v, ""⟩, cs2)
      | none => (.error "bad number literal", ch :: cs)
    else if ch.isAlpha then
      let run := cs.takeWhile fun c => c.isAlpha || c.isDigit
      let rest := cs.dropWhile fun c => c.isAlpha || c.isDigit
      let s := String.mk (ch :: run)
      if s = declkey then (.ok (Token.ofKind letk), rest)
      else (.ok ⟨name, 0, s⟩, rest)
    else (.error "Bad token", cs)

/-- State of the `Token_stream` class: the one-token pushback slot (`full`
and `buffer` fused into an `Option`) and the remaining characters of
`cin`. -/
structure Token_stream where
  buffer : Option Token
  input : List Char
deriving DecidableEq

/-- Result of a `Token_stream` operation: a value (or the message of a
thrown error) together with the stream state afterwards. -/
inductive TRes (α : Type) where
  | ok (a : α) (ts : Token_stream)
  | err (msg : String) (ts : Token_stream)
deriving DecidableEq

/-- The method `Token_stream::get`: return the buffered token if one is
pending, otherwise lex one token from the characters. -/
def Token_stream.get (ts : Token_stream) : TRes Token :=
  match ts.buffer with
  | some t => .ok t ⟨none, ts.input⟩
  | none =>
    match lexOne ts.input with
    | (.ok t, cs) => .ok t ⟨none, cs⟩
    | (.error e, cs) => .err e ⟨none, cs⟩

/-- The method `Token_stream::putback`: store `t` in the buffer, or throw
`error("putback() into a full buffer")` if a token is already pending. -/
def Token_stream.putback (t : Token) (ts : Token_stream) : TRes Unit :=
  match ts.buffer with
  | some _ => .err "putback() into a full buffer" ts
  | none => .ok () ⟨some t, ts.input⟩

/-- Drop characters as the loop `while (cin >> ch)` of
`Token_stream::ignore` does, up to and including the first non-whitespace
character equal to `c` (whitespace is skipped by `>>`, so it can never
match). -/
def dropThroughChar (c : Char) : List Char → List Char
  | [] => []
  | ch :: cs =>
    if ch = c ∧ isStreamWs ch = false then cs else dropThroughChar c cs

/-- The method `Token_stream::ignore`: if the pending token has kind `c`,
just drop it; otherwise drop any pending token and scan the raw characters
up to and including a `c`. -/
def Token_stream.ignore (c : Char) (ts : Token_stream) : Token_stream :=
  match ts.buffer with
  | some t =>
    if t.kind = c then ⟨none, ts.input⟩
    else ⟨none, dropThroughChar c ts.input⟩
  | none => ⟨none, dropThroughChar c ts.input⟩

/-- The global state the evaluator works on: the token stream `ts` and the
variable table `var_table`. -/
structure CalcState where
  ts : Token_stream
  var_table : List Variable
deriving DecidableEq

/-- Result of an evaluator step: a value (or the message of a thrown error)
together with the global state afterwards. -/
inductive Res (α : Type) where
  | ok (a : α) (s : CalcState)
  | err (msg : String) (s : CalcState)
deriving DecidableEq

/-- The state component of a result. -/
def Res.state : Res α → CalcState
  | .ok _ s => s
  | .err _ s => s

/-- The call `ts.get()` lifted to the global state. -/
def getT (s : CalcState) : Res Token :=
  match s.ts.get with
  | .ok t ts => .ok t ⟨ts, s.var_table⟩
  | .err m ts => .err m ⟨ts, s.var_table⟩

/-- The call `ts.putback(t)` lifted to the global state. -/
def putbackT (t : Token) (s : CalcState) : Res Unit :=
  match Token_stream.putback t s.ts with
  | .ok _ ts => .ok () ⟨ts, s.var_table⟩
  | .err m ts => .err m ⟨ts, s.var_table⟩

/-- Which of the mutually recursive grammar functions is running: `primary`,
`term` (entry and its `while` loop with the accumulator and the token just
read), `expression` (likewise), `statement` or `declaration`. -/
inductive Mode where
  | primaryM
  | termM
  | termLoopM (left : ℚ) (t : Token)
  | exprM
  | exprLoopM (left : ℚ) (t : Token)
  | statementM
  | declarationM
deriving DecidableEq

/-- The mutually recursive grammar functions of the source, as one function
structurally recursive on a fuel counter (every call of one grammar
function by another costs one unit). Each `Mode` branch is the literal
translation of the corresponding C++ function body. -/
def run : Nat → Mode → CalcState → Res ℚ
  | 0, _, s => .err "out of fuel" s
  | f + 1, m, s =>
    match m with
    | .primaryM =>
      match getT s with
      | .err e s1 => .err e s1
      | .ok t s1 =>
        if t.kind = '(' then
          match run f .exprM s1 with
          | .err e s2 => .err e s2
          | .ok d s2 =>
            match getT s2 with
            | .err e s3 => .err e s3
            | .ok t2 s3 =>
              if t2.kind = ')' then .ok d s3 else .err "')' expected" s3
        else if t.kind = number then .ok t.value s1
        else if t.kind = '-' then
          match run f .primaryM s1 with
          | .err e s2 => .err e s2
          | .ok d s2 => .ok (-d) s2
        else if t.kind = '+' then run f .primaryM s1
        else if t.kind = name then
          match get_value t.name s1.var_table with
          | .error e => .err e s1
          | .ok v => .ok v s1
        else .err "primary expected" s1
    | .termM =>
      match run f .primaryM s with
      | .err e s1 => .err e s1
      | .ok left s1 =>
        match getT s1 with
        | .err e s2 => .err e s2
        | .ok t s2 => run f (.termLoopM left t) s2
    | .termLoopM left t =>
      if t.kind = '*' then
        match run f .primaryM s with
        | .err e s1 => .err e s1
        | .ok d s1 =>
          match getT s1 with
          | .err e s2 => .err e s2
          | .ok t2 s2 => run f (.termLoopM (left * d) t2) s2
      else if t.kind = '/' then
        match run f .primaryM s with
        | .err e s1 => .err e s1
        | .ok d s1 =>
          if d = 0 then .err "divide by zero" s1
          else
            match getT s1 with
            | .err e s2 => .err e s2
            | .ok t2 s2 => run f (.termLoopM (left / d) t2) s2
      else if t.kind = '%' then
        match run f .primaryM s with
        | .err e s1 => .err e s1
        | .ok d s1 =>
          if d = 0 then .err "%:divide by zero" s1
          else
            match getT s1 with
            | .err e s2 => .err e s2
            | .ok t2 s2 => run f (.termLoopM (fmodQ left d) t2) s2
      else
        match putbackT t s with
        | .err e s1 => .err e s1
        | .ok _ s1 => .ok left s1
    | .exprM =>
      match run f .termM s with
      | .err e s1 => .err e s1
      | .ok left s1 =>
        match getT s1 with
        | .err e s2 => .err e s2
        | .ok t s2 => run f (.exprLoopM left t) s2
    | .exprLoopM left t =>
      if t.kind = '+' then
        match run f .termM s with
        | .err e s1 => .err e s1
        | .ok d s1 =>
          match getT s1 with
          | .err e s2 => .err e s2
          | .ok t2 s2 => run f (.exprLoopM (left + d) t2) s2
      else if t.kind = '-' then
        match run f .termM s with
        | .err e s1 => .err e s1
        | .ok d s1 =>
          match getT s1 with
          | .err e s2 => .err e s2
          | .ok t2 s2 => run f (.exprLoopM (left - d) t2) s2
      else
        match putbackT t s with
        | .err e s1 => .err e s1
        | .ok _ s1 => .ok left s1
    | .statementM =>
      match getT s with
      | .err e s1 => .err e s1
      | .ok t s1 =>
        if t.kind = letk then run f .declarationM s1
        else
          match putbackT t s1 with
          | .err e s2 => .err e s2
          | .ok _ s2 => run f .exprM s2
    | .declarationM =>
      match getT s with
      | .err e s1 => .err e s1
      | .ok t s1 =>
        if t.kind ≠ name then .err "name expected in declaration" s1
        else
          match getT s1 with
          | .err e s2 => .err e s2
          | .ok t2 s2 =>
            if t2.kind ≠ '=' then
              .err ("= missing in declartion of " ++ t.name) s2
            else
              match run f .exprM s2 with
              | .err e s3 => .err e s3
              | .ok d s3 =>
                match define_name t.name d s3.var_table with
                | (.error e, tbl) => .err e ⟨s3.ts, tbl⟩
                | (.ok _, tbl) => .ok d ⟨s3.ts, tbl⟩

/-- The function `primary` (numbers, parenthesised expressions, unary sign,
variables). -/
def primary (f : Nat) (s : CalcState) : Res ℚ := run f .primaryM s

/-- The function `term` (`*`, `/` and `%` over primaries). -/
def term (f : Nat) (s : CalcState) : Res ℚ := run f .termM s

/-- The `while` loop of `term`, with its accumulator `left` and the token
`t` just read. -/
def termLoop (f : Nat) (left : ℚ) (t : Token) (s : CalcState) : Res ℚ :=
  run f (.termLoopM left t) s

/-- The function `expression` (`+` and `-` over terms). -/
def expression (f : Nat) (s : CalcState) : Res ℚ := run f .exprM s

/-- The `while` loop of `expression`, with its accumulator `left` and the
token `t` just read. -/
def exprLoop (f : Nat) (left : ℚ) (t : Token) (s : CalcState) : Res ℚ :=
  run f (.exprLoopM left t) s

/-- The function `statement` (declaration or expression). -/
def statement (f : Nat) (s : CalcState) : Res ℚ := run f .statementM s

/-- The function `declaration` (after the `let` keyword was consumed). -/
def declaration (f : Nat) (s : CalcState) : Res ℚ := run f .declarationM s

/-- The variable table as `main` populates it before the session starts:
`define_name("pi", 3.1415926535); define_name("e", 2.7182818284)`. -/
def initial_table : List Variable :=
  (define_name "e" 2.7182818284 (define_name "pi" 3.1415926535 []).2).2

/-- The two modes that may write the variable table. -/
def Mode.writesTable : Mode → Bool
  | .statementM => true
  | .declarationM => true
  | _ => false

/-- Abstract syntax of the arithmetic statements of claim C1: number
literals (a list of integer-part digits and a list of fraction digits,
base 10), unary sign, and the five binary operators. Parenthesised
grouping is introduced by the renderer below wherever the grammar demands
it. -/
inductive Aexp where
  | lit (ds : List (Fin 10)) (fr : List (Fin 10))
  | neg (a : Aexp)
  | pos (a : Aexp)
  | add (a b : Aexp)
  | sub (a b : Aexp)
  | mul (a b : Aexp)
  | div (a b : Aexp)
  | rem (a b : Aexp)
deriving DecidableEq

/-- Value of a digit list read most-significant first, over an
accumulator. -/
def digitsValAux : Nat → List (Fin 10) → Nat
  | acc, [] => acc
  | acc, d :: ds => digitsValAux (10 * acc + d.val) ds

/-- Value of a digit list read most-significant first. -/
def digitsVal (ds : List (Fin 10)) : Nat := digitsValAux 0 ds

/-- Exact value of the literal with integer digits `ds` and fraction
digits `fr`. -/
def litVal (ds fr : List (Fin 10)) : ℚ :=
  (digitsVal ds : ℚ) + (digitsVal fr : ℚ) / 10 ^ fr.length

/-- Well-formed statements: every literal has at least one digit. -/
def wfA : Aexp → Bool
  | .lit ds fr => !ds.isEmpty || !fr.isEmpty
  | .neg a => wfA a
  | .pos a => wfA a
  | .add a b => wfA a && wfA b
  | .sub a b => wfA a && wfA b
  | .mul a b => wfA a && wfA b
  | .div a b => wfA a && wfA b
  | .rem a b => wfA a && wfA b

/-- Modelled from the spec: the mathematically correct value of a
statement under left-to-right, precedence-respecting evaluation — the
reference semantics the evaluator is compared against in C1. Division and
remainder by zero have no mathematically correct value (`none`); the
remainder is the C `fmod` of the operands, matching the spec's
`7%3 = 1.0`. -/
def specEval : Aexp → Option ℚ
  | .lit ds fr => some (litVal ds fr)
  | .neg a =>
    match specEval a with
    | some x => some (-x)
    | none => none
  | .pos a => specEval a
  | .add a b =>
    match specEval a, specEval b with
    | some x, some y => some (x + y)
    | _, _ => none
  | .sub a b =>
    match specEval a, specEval b with
    | some x, some y => some (x - y)
    | _, _ => none
  | .mul a b =>
    match specEval a, specEval b with
    | some x, some y => some (x * y)
    | _, _ => none
  | .div a b =>
    match specEval a, specEval b with
    | some x, some y => if y = 0 then none else some (x / y)
    | _, _ => none
  | .rem a b =>
    match specEval a, specEval b with
    | some x, some y => if y = 0 then none else some (fmodQ x y)
    | _, _ => none

/-- The character of a digit. -/
def dchar (d : Fin 10) : Char := Nat.digitChar d.val

/-- Concrete text of a literal: the integer digits, then a dot and the
fraction digits when there are any. -/
def renderLit (ds fr : List (Fin 10)) : List Char :=
  ds.map dchar ++ (if fr.isEmpty then [] else '.' :: fr.map dchar)

mutual

/-- Concrete text of a statement at the `Expression` level of the
grammar: sums and differences are written with their left operand at the
expression level and their right operand at the term level
(left-associativity); anything else is written as a term. -/
def renderE : Aexp → List Char
  | .add a b => renderE a ++ '+' :: renderT b
  | .sub a b => renderE a ++ '-' :: renderT b
  | a => renderT a
termination_by a => (sizeOf a, 2)

/-- Concrete text at the `Term` level: products, quotients and remainders
with the left operand at the term level and the right operand at the
primary level; anything else is written as a primary. -/
def renderT : Aexp → List Char
  | .mul a b => renderT a ++ '*' :: renderP b
  | .div a b => renderT a ++ '/' :: renderP b
  | .rem a b => renderT a ++ '%' :: renderP b
  | a => renderP a
termination_by a => (sizeOf a, 1)

/-- Concrete text at the `Primary` level: literals and signs directly,
any binary node wrapped in parentheses (the bodies inline `renderE` and
`renderT` of the node so the mutual recursion is strictly decreasing). -/
def renderP : Aexp → List Char
  | .lit ds fr => renderLit ds fr
  | .neg a => '-' :: renderP a
  | .pos a => '+' :: renderP a
  | .add a b => '(' :: (renderE a ++ '+' :: renderT b) ++ [')']
  | .sub a b => '(' :: (renderE a ++ '-' :: renderT b) ++ [')']
  | .mul a b => '(' :: (renderT a ++ '*' :: renderP b) ++ [')']
  | .div a b => '(' :: (renderT a ++ '/' :: renderP b) ++ [')']
  | .rem a b => '(' :: (renderT a ++ '%' :: renderP b) ++ [')']
termination_by a => (sizeOf a, 0)

end

/-- Head term of the expression-level spine of `a` (the leftmost term of
its chain of sums and differences). -/
def eHead : Aexp → Aexp
  | .add a _ => eHead a
  | .sub a _ => eHead a
  | a => a

/-- Operator/term pairs of the expression-level spine of `a`, in the
left-to-right order the `expression` loop consumes them. -/
def eOps : Aexp → List (Char × Aexp)
  | .add a b => eOps a ++ [('+', b)]
  | .sub a b => eOps a ++ [('-', b)]
  | _ => []

/-- Head primary of the term-level spine of `a`. -/
def tHead : Aexp → Aexp
  | .mul a _ => tHead a
  | .div a _ => tHead a
  | .rem a _ => tHead a
  | a => a

/-- Operator/primary pairs of the term-level spine of `a`. -/
def tOps : Aexp → List (Char × Aexp)
  | .mul a b => tOps a ++ [('*', b)]
  | .div a b => tOps a ++ [('/', b)]
  | .rem a b => tOps a ++ [('%', b)]
  | _ => []

/-- Text of an expression-level spine tail. -/
def opsRenderE : List (Char × Aexp) → List Char
  | [] => []
  | (c, t) :: ops => c :: renderT t ++ opsRenderE ops

/-- Text of a term-level spine tail. -/
def opsRenderT : List (Char × Aexp) → List Char
  | [] => []
  | (c, p) :: ops => c :: renderP p ++ opsRenderT ops

/-- Left fold of an expression-level spine tail over the accumulator, as
the `expression` loop computes it. -/
def foldOpsE : ℚ → List (Char × Aexp) → Option ℚ
  | v, [] => some v
  | v, (c, t) :: ops =>
    match specEval t with
    | none => none
    | some w => foldOpsE (if c = '+' then v + w else v - w) ops

/-- Left fold of a term-level spine tail over the accumulator, as the
`term` loop computes it: the divisor/modulus is checked against zero
before the operation is applied. -/
def foldOpsT : ℚ → List (Char × Aexp) → Option ℚ
  | v, [] => some v
  | v, (c, p) :: ops =>
    match specEval p with
    | none => none
    | some w =>
      if c = '*' then foldOpsT (v * w) ops
      else if w = 0 then none
      else if c = '/' then foldOpsT (v / w) ops
      else foldOpsT (fmodQ v w) ops

/-- The characters that may follow a primary's text in the renderings
used for C1 (they stop the lexer's number scan). -/
def pStops : List Char := [';', ')', '+', '-', '*', '/', '%']

/-- The characters that may follow a term's text (they leave the `term`
loop). -/
def tStops : List Char := [';', ')', '+', '-']

/-- The characters that may follow an expression's text (they leave the
`expression` loop). -/
def eStops : List Char := [';', ')']

/-- First character after a spine render: the first operator of the tail,
or the stop character. -/
def headC : List (Char × Aexp) → Char → Char
  | [], c => c
  | (c1, _) :: _, _ => c1

/-- Characters of a term-level spine tail after its first operator. -/
def tailT : List (Char × Aexp) → Char → List Char → List Char
  | [], _, rest0 => rest0
  | (_, p) :: ops, c, rest0 => renderP p ++ (opsRenderT ops ++ c :: rest0)

/-- Characters of an expression-level spine tail after its first
operator. -/
def tailE : List (Char × Aexp) → Char → List Char → List Char
  | [], _, rest0 => rest0
  | (_, t) :: ops, c, rest0 => renderT t ++ (opsRenderE ops ++ c :: rest0)

/-- Size measure for the induction over statements. -/
def sizeA : Aexp → Nat
  | .lit _ _ => 1
  | .neg a => sizeA a + 1
  | .pos a => sizeA a + 1
  | .add a b => sizeA a + sizeA b + 1
  | .sub a b => sizeA a + sizeA b + 1
  | .mul a b => sizeA a + sizeA b + 1
  | .div a b => sizeA a + sizeA b + 1
  | .rem a b => sizeA a + sizeA b + 1

/-- Specification of a successful `primary` run over the rendering of
`a`: for every stop character and every table, some fuel suffices (and
any larger fuel too), the value is the mathematically correct one and
exactly the primary's text is consumed. -/
def PhiP (a : Aexp) : Prop :=
  wfA a = true → ∀ v, specEval a = some v →
    ∀ (c : Char) (rest0 : List Char) (vars : List Variable), c ∈ pStops →
      ∃ f, ∀ g, f ≤ g →
        primary g ⟨⟨none, renderP a ++ c :: rest0⟩, vars⟩ =
          .ok v ⟨⟨none, c :: rest0⟩, vars⟩

/-- Specification of a successful `term` run over the rendering of `a`:
the trailing stop token is read and pushed back. -/
def PhiT (a : Aexp) : Prop :=
  wfA a = true → ∀ v, specEval a = some v →
    ∀ (c : Char) (rest0 : List Char) (vars : List Variable), c ∈ tStops →
      ∃ f, ∀ g, f ≤ g →
        term g ⟨⟨none, renderT a ++ c :: rest0⟩, vars⟩ =
          .ok v ⟨⟨some (Token.ofKind c), rest0⟩, vars⟩

/-- Specification of a successful `expression` run over the rendering of
`a`: the trailing stop token is read and pushed back. -/
def PhiE (a : Aexp) : Prop :=
  wfA a = true → ∀ v, specEval a = some v →
    ∀ (c : Char) (rest0 : List Char) (vars : List Variable), c ∈ eStops →
      ∃ f, ∀ g, f ≤ g →
        expression g ⟨⟨none, renderE a ++ c :: rest0⟩, vars⟩ =
          .ok v ⟨⟨some (Token.ofKind c), rest0⟩, vars⟩

set_option allowUnsafeReducibility true
section
attribute [local semireducible] Rat.add Rat.sub Rat.mul Rat.inv Rat.ofScientific

example :
    statement 20 ⟨⟨none, "pi;".toList⟩, initial_table⟩ =
      .ok 3.1415926535 ⟨⟨some (Token.ofKind ';'), []⟩, initial_table⟩ := by
  decide

example :
    statement 20 ⟨⟨none, "2+3*4;".toList⟩, []⟩ =
      .ok 14 ⟨⟨some (Token.ofKind ';'), []⟩, []⟩ := by
  decide

example :
    statement 20 ⟨⟨none, "(2+3)*4;".toList⟩, []⟩ =
      .ok 20 ⟨⟨some (Token.ofKind ';'), []⟩, []⟩ := by
  decide

example :
    statement 20 ⟨⟨none, "7%3;".toList⟩, []⟩ =
      .ok 1 ⟨⟨some (Token.ofKind ';'), []⟩, []⟩ := by
  decide

example :
    statement 20 ⟨⟨none, "1/0;".toList⟩, []⟩ =
      .err "divide by zero" ⟨⟨none, ";".toList⟩, []⟩ := by
  decide

/-- The boolean `is_declared` decides the presence of an entry named
`var`. -/
theorem is_declared_iff (var : String) :
    ∀ tbl : List Variable, is_declared var tbl = true ↔ ∃ w ∈ tbl, w.name = var := by
  intro tbl
  induction tbl with
  | nil => simp [is_declared]
  | cons v vs ih =>
    by_cases h : v.name = var <;> simp [is_declared, h, ih]

/-- C5: `define_name` fails with the duplicate-declaration error and leaves
the table unchanged when a variable named `var` is already present;
otherwise it appends the pair `{var, val}` to the table and returns
`val`. -/
theorem claim_C5 (var : String) (val : ℚ) (tbl : List Variable) :
    ((∃ w ∈ tbl, w.name = var) →
      define_name var val tbl = (.error (var ++ " declared twice"), tbl)) ∧
    ((¬ ∃ w ∈ tbl, w.name = var) →
      define_name var val tbl = (.ok val, tbl ++ [⟨var, val⟩])) := by
  constructor
  · intro h
    have hd : is_declared var tbl = true := (is_declared_iff _ _).2 h
    simp [define_name, hd]
  · intro h
    cases hd : is_declared var tbl with
    | false => simp [define_name, hd]
    | true => exact absurd ((is_declared_iff _ _).1 hd) h

/-- C5 witness: a duplicate declaration of `x` fails and leaves the table
alone; a fresh declaration of `y` appends to the table. -/
theorem claim_C5_witness :
    define_name "x" 2 [⟨"x", 1⟩] = (.error "x declared twice", [⟨"x", 1⟩]) ∧
    define_name "y" 2 [⟨"x", 1⟩] = (.ok 2, [⟨"x", 1⟩, ⟨"y", 2⟩]) :=
  ⟨(claim_C5 "x" 2 [⟨"x", 1⟩]).1 ⟨⟨"x", 1⟩, by simp⟩,
   (claim_C5 "y" 2 [⟨"x", 1⟩]).2 (by simp)⟩

/-- C3: the claimed contract of `set_value` (fail exactly when the name is
absent, update when present) does not hold of the source. The `error` call
stands inside the range-`for` body, so `set_value("e", 1)` on a table that
holds `e` in second position throws `set: undefined variable e`, and
`set_value("x", 1)` on an empty table returns without any error although
`x` is absent. -/
theorem claim_C3 :
    set_value "e" 1 [⟨"pi", 3⟩, ⟨"e", 4⟩] =
      (.error "set: undefined variable e", [⟨"pi", 3⟩, ⟨"e", 4⟩]) ∧
    set_value "x" 1 [] = (.ok (), []) :=
  ⟨rfl, rfl⟩

/-- C6: table operations preserve uniqueness of names. The two reading
operations `get_value` and `is_declared` take the table immutably, so the
two mutating operations `set_value` and `define_name` are the ones with
content: both return a table whose names are pairwise distinct whenever the
input table's are. -/
theorem claim_C6 (s : String) (d : ℚ) (var : String) (val : ℚ)
    (tbl : List Variable) (h : (tbl.map Variable.name).Nodup) :
    (((set_value s d tbl).2).map Variable.name).Nodup ∧
    (((define_name var val tbl).2).map Variable.name).Nodup := by
  constructor
  · cases tbl with
    | nil => simp [set_value]
    | cons v vs =>
      by_cases hv : v.name = s
      · simpa [set_value, hv] using h
      · simpa [set_value, hv] using h
  · cases hd : is_declared var tbl with
    | true => simpa [define_name, hd] using h
    | false =>
      have hni : ∀ w ∈ tbl, w.name ≠ var := by
        intro w hw hc
        have : is_declared var tbl = true := (is_declared_iff _ _).2 ⟨w, hw, hc⟩
        simp [this] at hd
      simp only [define_name, hd, Bool.false_eq_true, if_false, List.map_append,
        List.map_cons, List.map_nil]
      rw [List.nodup_append]
      refine ⟨h, List.nodup_singleton _, ?_⟩
      intro a ha hb
      simp only [List.mem_map] at ha
      obtain ⟨w, hw, rfl⟩ := ha
      simp only [List.mem_singleton] at hb
      exact hni w hw hb

/-- C6 witness: updating and declaring on the two-entry initial table keep
its names pairwise distinct. -/
theorem claim_C6_witness :
    ((([⟨"pi", 3⟩, ⟨"e", 4⟩] : List Variable).map Variable.name).Nodup) ∧
    (((set_value "pi" 1 [⟨"pi", 3⟩, ⟨"e", 4⟩]).2).map Variable.name).Nodup ∧
    (((define_name "x" 1 [⟨"pi", 3⟩, ⟨"e", 4⟩]).2).map Variable.name).Nodup := by
  have h : (([⟨"pi", 3⟩, ⟨"e", 4⟩] : List Variable).map Variable.name).Nodup := by
    decide
  exact ⟨h, (claim_C6 "pi" 1 "x" 1 _ h).1, (claim_C6 "pi" 1 "x" 1 _ h).2⟩

/-- C4: the pushback buffer is exactly one token deep. With no token
pending, `putback t` stores `t` and consumes nothing, and the immediately
following `get` returns exactly `t` (kind, value and name), consumes no
characters of the underlying input and empties the buffer; with a token
already pending, `putback` throws the putback-overflow error and leaves the
pending token in place. -/
theorem claim_C4 (t : Token) (ts : Token_stream) :
    (ts.buffer = none →
      Token_stream.putback t ts = .ok () ⟨some t, ts.input⟩ ∧
      Token_stream.get ⟨some t, ts.input⟩ = .ok t ⟨none, ts.input⟩) ∧
    (∀ u, ts.buffer = some u →
      Token_stream.putback t ts = .err "putback() into a full buffer" ts) := by
  constructor
  · intro h
    exact ⟨by simp [Token_stream.putback, h], by simp [Token_stream.get]⟩
  · intro u h
    simp [Token_stream.putback, h]

/-- C4 witness: pushing `+` back into an empty buffer and reading it again,
and the overflow on a second pushback. -/
theorem claim_C4_witness :
    (Token_stream.putback (Token.ofKind '+') ⟨none, ['1']⟩ =
        .ok () ⟨some (Token.ofKind '+'), ['1']⟩ ∧
      Token_stream.get ⟨some (Token.ofKind '+'), ['1']⟩ =
        .ok (Token.ofKind '+') ⟨none, ['1']⟩) ∧
    Token_stream.putback (Token.ofKind '*') ⟨some (Token.ofKind '+'), ['1']⟩ =
      .err "putback() into a full buffer" ⟨some (Token.ofKind '+'), ['1']⟩ :=
  ⟨(claim_C4 (Token.ofKind '+') ⟨none, ['1']⟩).1 rfl,
   (claim_C4 (Token.ofKind '*') ⟨some (Token.ofKind '+'), ['1']⟩).2
     (Token.ofKind '+') rfl⟩

/-- Reading from a stream with a pending token returns it and clears the
slot, consuming no characters. -/
theorem getT_pending (t : Token) (input : List Char) (vars : List Variable) :
    getT ⟨⟨some t, input⟩, vars⟩ = .ok t ⟨⟨none, input⟩, vars⟩ := by
  simp [getT, Token_stream.get]

/-- Lexing a leading single-character operator token. -/
theorem lexOne_op (c : Char) (cs : List Char) (hws : isStreamWs c = false)
    (hop : c ∈ opChars) :
    lexOne (c :: cs) = (.ok (Token.ofKind c), cs) := by
  simp [lexOne, List.dropWhile_cons, hws, hop]

/-- Reading from a stream whose next character is a single-character
operator. -/
theorem getT_op (c : Char) (cs : List Char) (vars : List Variable)
    (hws : isStreamWs c = false) (hop : c ∈ opChars) :
    getT ⟨⟨none, c :: cs⟩, vars⟩ = .ok (Token.ofKind c) ⟨⟨none, cs⟩, vars⟩ := by
  simp [getT, Token_stream.get, lexOne_op c cs hws hop]

/-- Pushing a token back onto a stream with an empty slot. -/
theorem putbackT_none (t : Token) (input : List Char) (vars : List Variable) :
    putbackT t ⟨⟨none, input⟩, vars⟩ = .ok () ⟨⟨some t, input⟩, vars⟩ := by
  simp [putbackT, Token_stream.putback]

/-- C2: in the `term` loop, when the primary following a `/` or `%`
evaluates to zero, the loop throws the corresponding error at the state
reached by that primary, before the accumulator `left` is combined with the
operand (no division or remainder is performed, so no infinity or NaN can
arise). -/
theorem claim_C2 (f : Nat) (left : ℚ) (t : Token) (s : CalcState) (d : ℚ)
    (s1 : CalcState) (hk : t.kind = '/' ∨ t.kind = '%')
    (hp : primary f s = .ok d s1) (h0 : d = 0) :
    termLoop (f + 1) left t s =
      .err (if t.kind = '/' then "divide by zero" else "%:divide by zero") s1 := by
  subst h0
  simp only [primary] at hp
  rcases hk with hk | hk <;>
    simp [termLoop, run, hk, hp]

/-- C2 witness: with input `0;` the primary yields `0`, and the term loop
entered with token `/` fails with the division-by-zero error at that
state. -/
theorem claim_C2_witness :
    primary 5 ⟨⟨none, "0;".toList⟩, []⟩ = .ok 0 ⟨⟨none, ";".toList⟩, []⟩ ∧
    termLoop 6 7 (Token.ofKind '/') ⟨⟨none, "0;".toList⟩, []⟩ =
      .err "divide by zero" ⟨⟨none, ";".toList⟩, []⟩ := by
  have hp : primary 5 ⟨⟨none, "0;".toList⟩, []⟩ =
      .ok 0 ⟨⟨none, ";".toList⟩, []⟩ := by decide
  refine ⟨hp, ?_⟩
  have h := claim_C2 5 7 (Token.ofKind '/') ⟨⟨none, "0;".toList⟩, []⟩ 0
    ⟨⟨none, ";".toList⟩, []⟩ (Or.inl rfl) hp rfl
  simpa using h

/-- C7: prefixing the pending input with two unary-minus characters does
not change the value a successful `primary` produces (the `-` case negates
the result of a recursive `primary`, and two negations cancel), nor the
final state. -/
theorem claim_C7 (f : Nat) (v : ℚ) (s s1 : CalcState)
    (hb : s.ts.buffer = none) (hp : primary f s = .ok v s1) :
    primary (f + 2) ⟨⟨none, '-' :: '-' :: s.ts.input⟩, s.var_table⟩ =
      .ok v s1 := by
  obtain ⟨⟨b, input⟩, vars⟩ := s
  simp only at hb
  subst hb
  simp only [primary] at hp ⊢
  have step : ∀ (g : Nat) (cs : List Char) (w : ℚ) (s2 : CalcState),
      run g .primaryM ⟨⟨none, cs⟩, vars⟩ = .ok w s2 →
      run (g + 1) .primaryM ⟨⟨none, '-' :: cs⟩, vars⟩ = .ok (-w) s2 := by
    intro g cs w s2 hg
    simp [run, getT_op '-' cs vars (by decide) (by decide), Token.ofKind,
      number, hg]
  have h1 := step f input v s1 hp
  have h2 := step (f + 1) ('-' :: input) (-v) s1 h1
  simpa using h2

/-- C7 witness: `primary` on `3;` yields `3`, and on `--3;` (two more fuel
units for the two extra recursion layers) it also yields `3`. -/
theorem claim_C7_witness :
    primary 5 ⟨⟨none, "3;".toList⟩, []⟩ = .ok 3 ⟨⟨none, ";".toList⟩, []⟩ ∧
    primary 7 ⟨⟨none, "--3;".toList⟩, []⟩ = .ok 3 ⟨⟨none, ";".toList⟩, []⟩ := by
  have hp : primary 5 ⟨⟨none, "3;".toList⟩, []⟩ =
      .ok 3 ⟨⟨none, ";".toList⟩, []⟩ := by decide
  exact ⟨hp, claim_C7 5 3 ⟨⟨none, "3;".toList⟩, []⟩ ⟨⟨none, ";".toList⟩, []⟩
    rfl hp⟩

/-- C8: before any user declaration the table holds exactly the two
built-ins `pi` and `e` with their literal values, and evaluating the
identifier `pi` (resp. `e`) as a first statement returns that literal
value. -/
theorem claim_C8 :
    initial_table = [⟨"pi", 3.1415926535⟩, ⟨"e", 2.7182818284⟩] ∧
    statement 20 ⟨⟨none, "pi;".toList⟩, initial_table⟩ =
      .ok 3.1415926535 ⟨⟨some (Token.ofKind ';'), []⟩, initial_table⟩ ∧
    statement 20 ⟨⟨none, "e;".toList⟩, initial_table⟩ =
      .ok 2.7182818284 ⟨⟨some (Token.ofKind ';'), []⟩, initial_table⟩ := by
  exact ⟨by decide, by decide, by decide⟩

/-- A `get` from the token stream never touches the variable table. -/
theorem getT_state_vars (s : CalcState) :
    ((getT s).state).var_table = s.var_table := by
  unfold getT
  cases s.ts.get <;> rfl

/-- A `get` that returns a token never touches the variable table. -/
theorem getT_ok_vars {s : CalcState} {t : Token} {s1 : CalcState}
    (h : getT s = .ok t s1) : s1.var_table = s.var_table := by
  have := getT_state_vars s
  rw [h] at this
  exact this

/-- A `putback` never touches the variable table. -/
theorem putbackT_state_vars (t : Token) (s : CalcState) :
    ((putbackT t s).state).var_table = s.var_table := by
  unfold putbackT
  cases Token_stream.putback t s.ts <;> rfl

/-- The grammar functions other than `statement` and `declaration` never
modify the variable table, whether they succeed or throw (`primary` only
reads it through `get_value`). -/
theorem run_preserves_vars :
    ∀ (f : Nat) (m : Mode) (s : CalcState),
      Mode.writesTable m = false →
      ((run f m s).state).var_table = s.var_table := by
  intro f
  induction f with
  | zero => intro m s _; rfl
  | succ f ih =>
    intro m s hm
    have vget : ∀ s2 : CalcState, ((getT s2).state).var_table = s2.var_table :=
      getT_state_vars
    cases m with
    | statementM => simp [Mode.writesTable] at hm
    | declarationM => simp [Mode.writesTable] at hm
    | primaryM =>
      cases hg : getT s with
      | err e s1 =>
        have A := vget s; rw [hg] at A
        simpa [run, hg, Res.state] using A
      | ok t s1 =>
        have A := vget s; rw [hg] at A
        simp only [Res.state] at A
        by_cases h1 : t.kind = '('
        · cases he : run f .exprM s1 with
          | err e s2 =>
            have B := ih .exprM s1 rfl; rw [he] at B
            simp only [Res.state] at B
            simpa [run, hg, h1, he, Res.state] using B.trans A
          | ok d s2 =>
            have B := ih .exprM s1 rfl; rw [he] at B
            simp only [Res.state] at B
            cases hg2 : getT s2 with
            | err e s3 =>
              have C := vget s2; rw [hg2] at C
              simp only [Res.state] at C
              simpa [run, hg, h1, he, hg2, Res.state] using
                (C.trans B).trans A
            | ok t2 s3 =>
              have C := vget s2; rw [hg2] at C
              simp only [Res.state] at C
              by_cases h2 : t2.kind = ')' <;>
                simpa [run, hg, h1, he, hg2, h2, Res.state] using
                  (C.trans B).trans A
        · by_cases h2 : t.kind = number
          · simpa [run, hg, h1, h2, Res.state] using A
          · by_cases h3 : t.kind = '-'
            · cases he : run f .primaryM s1 with
              | err e s2 =>
                have B := ih .primaryM s1 rfl; rw [he] at B
                simp only [Res.state] at B
                simpa [run, hg, h1, h2, h3, he, Res.state] using B.trans A
              | ok d s2 =>
                have B := ih .primaryM s1 rfl; rw [he] at B
                simp only [Res.state] at B
                simpa [run, hg, h1, h2, h3, he, Res.state] using B.trans A
            · by_cases h4 : t.kind = '+'
              · have B := ih .primaryM s1 rfl
                simpa [run, hg, h1, h2, h3, h4, Res.state] using B.trans A
              · by_cases h5 : t.kind = name
                · cases hv : get_value t.name s1.var_table <;>
                    simpa [run, hg, h1, h2, h3, h4, h5, hv, Res.state] using A
                · simpa [run, hg, h1, h2, h3, h4, h5, Res.state] using A
    | termM =>
      cases hp : run f .primaryM s with
      | err e s1 =>
        have A := ih .primaryM s rfl; rw [hp] at A
        simpa [run, hp, Res.state] using A
      | ok left s1 =>
        have A := ih .primaryM s rfl; rw [hp] at A
        simp only [Res.state] at A
        cases hg : getT s1 with
        | err e s2 =>
          have B := vget s1; rw [hg] at B
          simp only [Res.state] at B
          simpa [run, hp, hg, Res.state] using B.trans A
        | ok t s2 =>
          have B := vget s1; rw [hg] at B
          simp only [Res.state] at B
          have C := ih (.termLoopM left t) s2 rfl
          simpa [run, hp, hg, Res.state] using C.trans (B.trans A)
    | termLoopM left t =>
      have loopStep : ∀ (d : ℚ) (s1 : CalcState) (m2 : ℚ → Token → Mode),
          (∀ (x : ℚ) (t2 : Token), Mode.writesTable (m2 x t2) = false) →
          s1.var_table = s.var_table →
          ∀ (x : ℚ),
            ((match getT s1 with
              | .err e s2 => Res.err e s2
              | .ok t2 s2 => run f (m2 x t2) s2).state).var_table
              = s.var_table := by
        intro d s1 m2 hne hA x
        cases hg : getT s1 with
        | err e s2 =>
          have B := vget s1; rw [hg] at B
          simp only [Res.state] at B
          simpa [Res.state] using B.trans hA
        | ok t2 s2 =>
          have B := vget s1; rw [hg] at B
          simp only [Res.state] at B
          have C := ih (m2 x t2) s2 (hne x t2)
          simpa [Res.state] using C.trans (B.trans hA)
      by_cases h1 : t.kind = '*'
      · cases hp : run f .primaryM s with
        | err e s1 =>
          have A := ih .primaryM s rfl; rw [hp] at A
          simpa [run, h1, hp, Res.state] using A
        | ok d s1 =>
          have A := ih .primaryM s rfl; rw [hp] at A
          simp only [Res.state] at A
          have L := loopStep d s1 (fun x t2 => .termLoopM x t2)
            (fun x t2 => rfl) A (left * d)
          simpa [run, h1, hp, Res.state] using L
      · by_cases h2 : t.kind = '/'
        · cases hp : run f .primaryM s with
          | err e s1 =>
            have A := ih .primaryM s rfl; rw [hp] at A
            simpa [run, h1, h2, hp, Res.state] using A
          | ok d s1 =>
            have A := ih .primaryM s rfl; rw [hp] at A
            simp only [Res.state] at A
            by_cases hz : d = 0
            · simpa [run, h1, h2, hp, hz, Res.state] using A
            · have L := loopStep d s1 (fun x t2 => .termLoopM x t2)
                (fun x t2 => rfl) A
                (left / d)
              simpa [run, h1, h2, hp, hz, Res.state] using L
        · by_cases h3 : t.kind = '%'
          · cases hp : run f .primaryM s with
            | err e s1 =>
              have A := ih .primaryM s rfl; rw [hp] at A
              simpa [run, h1, h2, h3, hp, Res.state] using A
            | ok d s1 =>
              have A := ih .primaryM s rfl; rw [hp] at A
              simp only [Res.state] at A
              by_cases hz : d = 0
              · simpa [run, h1, h2, h3, hp, hz, Res.state] using A
              · have L := loopStep d s1 (fun x t2 => .termLoopM x t2)
                  (fun x t2 => rfl) A
                  (fmodQ left d)
                simpa [run, h1, h2, h3, hp, hz, Res.state] using L
          · cases hpb : putbackT t s with
            | err e s1 =>
              have A := putbackT_state_vars t s; rw [hpb] at A
              simpa [run, h1, h2, h3, hpb, Res.state] using A
            | ok u s1 =>
              have A := putbackT_state_vars t s; rw [hpb] at A
              simpa [run, h1, h2, h3, hpb, Res.state] using A
    | exprM =>
      cases ht : run f .termM s with
      | err e s1 =>
        have A := ih .termM s rfl; rw [ht] at A
        simpa [run, ht, Res.state] using A
      | ok left s1 =>
        have A := ih .termM s rfl; rw [ht] at A
        simp only [Res.state] at A
        cases hg : getT s1 with
        | err e s2 =>
          have B := vget s1; rw [hg] at B
          simp only [Res.state] at B
          simpa [run, ht, hg, Res.state] using B.trans A
        | ok t s2 =>
          have B := vget s1; rw [hg] at B
          simp only [Res.state] at B
          have C := ih (.exprLoopM left t) s2 rfl
          simpa [run, ht, hg, Res.state] using C.trans (B.trans A)
    | exprLoopM left t =>
      by_cases h1 : t.kind = '+'
      · cases ht : run f .termM s with
        | err e s1 =>
          have A := ih .termM s rfl; rw [ht] at A
          simpa [run, h1, ht, Res.state] using A
        | ok d s1 =>
          have A := ih .termM s rfl; rw [ht] at A
          simp only [Res.state] at A
          cases hg : getT s1 with
          | err e s2 =>
            have B := vget s1; rw [hg] at B
            simp only [Res.state] at B
            simpa [run, h1, ht, hg, Res.state] using B.trans A
          | ok t2 s2 =>
            have B := vget s1; rw [hg] at B
            simp only [Res.state] at B
            have C := ih (.exprLoopM (left + d) t2) s2 rfl
            simpa [run, h1, ht, hg, Res.state] using C.trans (B.trans A)
      · by_cases h2 : t.kind = '-'
        · cases ht : run f .termM s with
          | err e s1 =>
            have A := ih .termM s rfl; rw [ht] at A
            simpa [run, h1, h2, ht, Res.state] using A
          | ok d s1 =>
            have A := ih .termM s rfl; rw [ht] at A
            simp only [Res.state] at A
            cases hg : getT s1 with
            | err e s2 =>
              have B := vget s1; rw [hg] at B
              simp only [Res.state] at B
              simpa [run, h1, h2, ht, hg, Res.state] using B.trans A
            | ok t2 s2 =>
              have B := vget s1; rw [hg] at B
              simp only [Res.state] at B
              have C := ih (.exprLoopM (left - d) t2) s2 rfl
              simpa [run, h1, h2, ht, hg, Res.state] using C.trans (B.trans A)
        · cases hpb : putbackT t s with
          | err e s1 =>
            have A := putbackT_state_vars t s; rw [hpb] at A
            simpa [run, h1, h2, hpb, Res.state] using A
          | ok u s1 =>
            have A := putbackT_state_vars t s; rw [hpb] at A
            simpa [run, h1, h2, hpb, Res.state] using A

/-- C9: in `declaration`, after the name and the `=` are consumed, the
right-hand-side expression is fully evaluated before `define_name` performs
the duplicate check: with the name already declared, a failure of the
expression preempts the duplicate-declaration failure, and in either
failure case the variable table is unchanged. -/
theorem claim_C9 (f : Nat) (s : CalcState) (t : Token) (s1 : CalcState)
    (t2 : Token) (s2 : CalcState)
    (h1 : getT s = .ok t s1) (hk1 : t.kind = name)
    (h2 : getT s1 = .ok t2 s2) (hk2 : t2.kind = '=')
    (hd : is_declared t.name s2.var_table = true) :
    (∀ e s3, expression f s2 = .err e s3 →
      declaration (f + 1) s = .err e s3 ∧ s3.var_table = s.var_table) ∧
    (∀ d s3, expression f s2 = .ok d s3 →
      declaration (f + 1) s = .err (t.name ++ " declared twice") s3 ∧
      s3.var_table = s.var_table) := by
  have hv1 : s1.var_table = s.var_table := getT_ok_vars h1
  have hv2 : s2.var_table = s1.var_table := getT_ok_vars h2
  constructor
  · intro e s3 he
    simp only [expression] at he
    have A := run_preserves_vars f .exprM s2 rfl
    rw [he] at A
    simp only [Res.state] at A
    refine ⟨?_, A.trans (hv2.trans hv1)⟩
    simp [declaration, run, h1, h2, hk1, hk2, he]
  · intro d s3 he
    simp only [expression] at he
    have A := run_preserves_vars f .exprM s2 rfl
    rw [he] at A
    simp only [Res.state] at A
    have hv3 : s3.var_table = s.var_table := A.trans (hv2.trans hv1)
    have hd3 : is_declared t.name s3.var_table = true := by
      rw [A]; exact hd
    refine ⟨?_, hv3⟩
    have : declaration (f + 1) s =
        .err (t.name ++ " declared twice") ⟨s3.ts, s3.var_table⟩ := by
      simp [declaration, run, h1, h2, hk1, hk2, he, define_name, hd3]
    simpa using this

/-- C9 witness: with the name `pi` (already declared in the initial table)
and `= 1;` pending, the expression evaluates to `1` and the declaration
then fails with the duplicate error, the table unchanged. -/
theorem claim_C9_witness :
    expression 20 ⟨⟨none, "1;".toList⟩, initial_table⟩ =
      .ok 1 ⟨⟨some (Token.ofKind ';'), []⟩, initial_table⟩ ∧
    declaration 21 ⟨⟨some ⟨name, 0, "pi"⟩, "=1;".toList⟩, initial_table⟩ =
      .err ("pi" ++ " declared twice")
        ⟨⟨some (Token.ofKind ';'), []⟩, initial_table⟩ := by
  have he : expression 20 ⟨⟨none, "1;".toList⟩, initial_table⟩ =
      .ok 1 ⟨⟨some (Token.ofKind ';'), []⟩, initial_table⟩ := by decide
  have h := (claim_C9 20 ⟨⟨some ⟨name, 0, "pi"⟩, "=1;".toList⟩, initial_table⟩
    ⟨name, 0, "pi"⟩ ⟨⟨none, "=1;".toList⟩, initial_table⟩
    (Token.ofKind '=') ⟨⟨none, "1;".toList⟩, initial_table⟩
    (by decide) rfl (by decide) rfl (by decide)).2
    1 ⟨⟨some (Token.ofKind ';'), []⟩, initial_table⟩ he
  exact ⟨he, h.1⟩

/-- C10: after `ignore c` the pushback buffer is always empty, and when the
pending token's kind differs from `c` that token is discarded without being
returned and the raw character input is scanned up to and including the
next `c` — the pending token is lost. -/
theorem claim_C10 (c : Char) (ts : Token_stream) :
    (Token_stream.ignore c ts).buffer = none ∧
    (∀ t, ts.buffer = some t → t.kind ≠ c →
      Token_stream.ignore c ts = ⟨none, dropThroughChar c ts.input⟩) := by
  constructor
  · cases h : ts.buffer with
    | none => simp [Token_stream.ignore, h]
    | some t =>
      by_cases hk : t.kind = c <;> simp [Token_stream.ignore, h, hk]
  · intro t h hk
    simp [Token_stream.ignore, h, hk]

/-- C10 witness: with a pending `+` token, `ignore(print)` drops the token
and the characters `ab;` of the input, keeping `cd`. -/
theorem claim_C10_witness :
    Token_stream.ignore ';' ⟨some (Token.ofKind '+'), "ab;cd".toList⟩ =
      ⟨none, "cd".toList⟩ := by
  have h := (claim_C10 ';' ⟨some (Token.ofKind '+'), "ab;cd".toList⟩).2
    (Token.ofKind '+') rfl (by decide)
  rw [h]
  decide

/-- Digit characters are decimal digits. -/
theorem dchar_isDigit : ∀ d : Fin 10, (dchar d).isDigit = true := by decide

/-- Digit characters are not stream whitespace. -/
theorem dchar_not_ws : ∀ d : Fin 10, isStreamWs (dchar d) = false := by decide

/-- Digit characters are not operator characters. -/
theorem dchar_not_op : ∀ d : Fin 10, dchar d ∉ opChars := by
  decide

/-- Numeric value of a digit character, as the lexer computes it. -/
theorem dchar_toNat : ∀ d : Fin 10, (dchar d).toNat - 48 = d.val := by decide

/-- Facts about primary stop characters: they end a number scan, are not
whitespace and lex as operator tokens. -/
theorem pStops_facts :
    ∀ c ∈ pStops, c.isDigit = false ∧ c ≠ '.' ∧ isStreamWs c = false ∧
      c ∈ opChars := by
  decide

/-- Term stop characters are primary stop characters. -/
theorem tStops_sub : ∀ c ∈ tStops, c ∈ pStops := by decide

/-- Expression stop characters are term stop characters. -/
theorem eStops_sub : ∀ c ∈ eStops, c ∈ tStops := by decide

/-- The digit scanner consumes exactly a rendered digit list when the next
character is not a digit, computing its value over the accumulator and
counting the digits. -/
theorem readNat_render :
    ∀ (ds : List (Fin 10)) (rest : List Char) (acc k : Nat),
      (∀ c cs, rest = c :: cs → c.isDigit = false) →
      readNat (ds.map dchar ++ rest) acc k =
        (digitsValAux acc ds, k + ds.length, rest) := by
  intro ds
  induction ds with
  | nil =>
    intro rest acc k h
    cases rest with
    | nil => simp [readNat, digitsValAux]
    | cons c cs => simp [readNat, h c cs rfl, digitsValAux]
  | cons d ds ih =>
    intro rest acc k h
    have h1 : (d :: ds).map dchar ++ rest = dchar d :: (ds.map dchar ++ rest) := by
      simp
    rw [h1]
    simp only [readNat, dchar_isDigit d, if_pos, dchar_toNat d]
    rw [ih rest _ _ h]
    simp only [digitsValAux, List.length_cons, Prod.mk.injEq, true_and,
      and_true]
    omega

/-- The number extraction consumes exactly a rendered literal when the next
character is neither a digit nor a dot, computing its exact rational
value. -/
theorem lexNumber_render (ds fr : List (Fin 10)) (c : Char)
    (rest0 : List Char) (hwf : ds ≠ [] ∨ fr ≠ []) (hcd : c.isDigit = false)
    (hcp : c ≠ '.') :
    lexNumber (renderLit ds fr ++ c :: rest0) =
      some (litVal ds fr, c :: rest0) := by
  have hrest : ∀ c2 cs2, c :: rest0 = c2 :: cs2 → c2.isDigit = false := by
    intro c2 cs2 he
    cases he
    exact hcd
  cases fr with
  | nil =>
    have hds : ds ≠ [] := by
      rcases hwf with h | h
      · exact h
      · exact absurd rfl h
    have hlen : ds.length ≠ 0 := fun h0 => hds (List.length_eq_zero.mp h0)
    have hren : renderLit ds [] ++ c :: rest0 = ds.map dchar ++ c :: rest0 := by
      simp [renderLit]
    rw [hren]
    simp only [lexNumber]
    rw [readNat_render ds (c :: rest0) 0 0 hrest]
    dsimp only
    split
    · next cs2 heq =>
      simp only [List.cons.injEq] at heq
      exact absurd heq.1 hcp
    · next hne =>
      rw [if_neg (by simpa using hlen)]
      simp [litVal, digitsVal, digitsValAux]
  | cons f0 fr2 =>
    have hren : renderLit ds (f0 :: fr2) ++ c :: rest0 =
        ds.map dchar ++ ('.' :: ((f0 :: fr2).map dchar ++ c :: rest0)) := by
      simp [renderLit]
    rw [hren]
    simp only [lexNumber]
    rw [readNat_render ds ('.' :: ((f0 :: fr2).map dchar ++ c :: rest0)) 0 0
      (by intro c2 cs2 he; cases he; decide)]
    dsimp only
    split
    · next cs2 heq =>
      simp only [List.cons.injEq, true_and] at heq
      rw [← heq]
      rw [readNat_render (f0 :: fr2) (c :: rest0) 0 0 hrest]
      dsimp only
      rw [if_neg (by simp)]
      simp [litVal, digitsVal]
    · next hne =>
      exact ((hne ((f0 :: fr2).map dchar ++ c :: rest0)) rfl).elim

/-- The lexer turns a rendered literal into the corresponding number token
when the next character is a primary stop character. -/
theorem lexOne_lit (ds fr : List (Fin 10)) (c : Char) (rest0 : List Char)
    (hwf : ds ≠ [] ∨ fr ≠ []) (hcd : c.isDigit = false) (hcp : c ≠ '.') :
    lexOne (renderLit ds fr ++ c :: rest0) =
      (.ok ⟨number, litVal ds fr, ""⟩, c :: rest0) := by
  have hnum := lexNumber_render ds fr c rest0 hwf hcd hcp
  cases ds with
  | cons d ds2 =>
    have h1 : renderLit (d :: ds2) fr ++ c :: rest0 =
        dchar d :: (ds2.map dchar ++
          ((if fr.isEmpty then [] else '.' :: fr.map dchar) ++ c :: rest0)) := by
      simp [renderLit]
    rw [h1]
    simp only [lexOne, List.dropWhile_cons, dchar_not_ws d, Bool.false_eq_true,
      if_false]
    rw [if_neg (fun h => dchar_not_op d (by simpa using h))]
    rw [if_pos (by simp [dchar_isDigit d])]
    rw [← h1, hnum]
  | nil =>
    have hfr : fr ≠ [] := by
      rcases hwf with h | h
      · exact absurd rfl h
      · exact h
    cases fr with
    | nil => exact absurd rfl hfr
    | cons f0 fr2 =>
      have h1 : renderLit [] (f0 :: fr2) ++ c :: rest0 =
          '.' :: ((f0 :: fr2).map dchar ++ c :: rest0) := by
        simp [renderLit]
      rw [h1]
      simp only [lexOne, List.dropWhile_cons]
      rw [if_neg (by decide)]
      dsimp only
      rw [if_neg (by decide)]
      rw [if_pos (by decide)]
      rw [← h1, hnum]

/-- Reading from a stream whose input starts with a rendered literal
followed by a primary stop character produces the number token. -/
theorem getT_lit (ds fr : List (Fin 10)) (c : Char) (rest0 : List Char)
    (vars : List Variable) (hwf : ds ≠ [] ∨ fr ≠ []) (hcd : c.isDigit = false)
    (hcp : c ≠ '.') :
    getT ⟨⟨none, renderLit ds fr ++ c :: rest0⟩, vars⟩ =
      .ok ⟨number, litVal ds fr, ""⟩ ⟨⟨none, c :: rest0⟩, vars⟩ := by
  simp [getT, Token_stream.get, lexOne_lit ds fr c rest0 hwf hcd hcp]


/-- Rendering distributes over concatenation of expression-spine tails. -/
theorem opsRenderE_append (l1 l2 : List (Char × Aexp)) :
    opsRenderE (l1 ++ l2) = opsRenderE l1 ++ opsRenderE l2 := by
  induction l1 with
  | nil => simp [opsRenderE]
  | cons q l ih =>
    obtain ⟨c, t⟩ := q
    simp [opsRenderE, ih]

/-- Rendering distributes over concatenation of term-spine tails. -/
theorem opsRenderT_append (l1 l2 : List (Char × Aexp)) :
    opsRenderT (l1 ++ l2) = opsRenderT l1 ++ opsRenderT l2 := by
  induction l1 with
  | nil => simp [opsRenderT]
  | cons q l ih =>
    obtain ⟨c, p⟩ := q
    simp [opsRenderT, ih]

/-- The expression-level text of `a` is its head term's text followed by
its spine tail's text. -/
theorem renderE_flatten :
    ∀ a : Aexp, renderE a = renderT (eHead a) ++ opsRenderE (eOps a) := by
  intro a
  induction a with
  | add a b iha ihb =>
    simp [renderE, eHead, eOps, iha, opsRenderE_append, opsRenderE]
  | sub a b iha ihb =>
    simp [renderE, eHead, eOps, iha, opsRenderE_append, opsRenderE]
  | lit ds fr => simp [renderE, eHead, eOps, opsRenderE]
  | neg a ih => simp [renderE, eHead, eOps, opsRenderE]
  | pos a ih => simp [renderE, eHead, eOps, opsRenderE]
  | mul a b iha ihb => simp [renderE, eHead, eOps, opsRenderE]
  | div a b iha ihb => simp [renderE, eHead, eOps, opsRenderE]
  | rem a b iha ihb => simp [renderE, eHead, eOps, opsRenderE]

/-- The term-level text of `a` is its head primary's text followed by its
spine tail's text. -/
theorem renderT_flatten :
    ∀ a : Aexp, renderT a = renderP (tHead a) ++ opsRenderT (tOps a) := by
  intro a
  induction a with
  | mul a b iha ihb =>
    simp [renderT, tHead, tOps, iha, opsRenderT_append, opsRenderT]
  | div a b iha ihb =>
    simp [renderT, tHead, tOps, iha, opsRenderT_append, opsRenderT]
  | rem a b iha ihb =>
    simp [renderT, tHead, tOps, iha, opsRenderT_append, opsRenderT]
  | lit ds fr => simp [renderT, tHead, tOps, opsRenderT]
  | neg a ih => simp [renderT, tHead, tOps, opsRenderT]
  | pos a ih => simp [renderT, tHead, tOps, opsRenderT]
  | add a b iha ihb => simp [renderT, tHead, tOps, opsRenderT]
  | sub a b iha ihb => simp [renderT, tHead, tOps, opsRenderT]

/-- Folding over a concatenation of expression-spine tails. -/
theorem foldOpsE_append (l1 l2 : List (Char × Aexp)) :
    ∀ x : ℚ, foldOpsE x (l1 ++ l2) =
      match foldOpsE x l1 with
      | some y => foldOpsE y l2
      | none => none := by
  induction l1 with
  | nil => intro x; simp [foldOpsE]
  | cons q l ih =>
    obtain ⟨c, t⟩ := q
    intro x
    simp only [List.cons_append, foldOpsE]
    cases specEval t with
    | none => simp
    | some w => simp [ih]

/-- Folding over a concatenation of term-spine tails. -/
theorem foldOpsT_append (l1 l2 : List (Char × Aexp)) :
    ∀ x : ℚ, foldOpsT x (l1 ++ l2) =
      match foldOpsT x l1 with
      | some y => foldOpsT y l2
      | none => none := by
  induction l1 with
  | nil => intro x; simp [foldOpsT]
  | cons q l ih =>
    obtain ⟨c, p⟩ := q
    intro x
    simp only [List.cons_append, foldOpsT]
    cases specEval p with
    | none => simp
    | some w =>
      by_cases h1 : c = '*'
      · simp [h1, ih]
      · by_cases h2 : w = 0
        · simp [h1, h2]
        · by_cases h3 : c = '/' <;> simp [h1, h2, h3, ih]

/-- The spec-side value of `a` is the fold of its expression spine. -/
theorem specEval_E_flatten :
    ∀ (a : Aexp) (v : ℚ), specEval a = some v →
      ∃ v0, specEval (eHead a) = some v0 ∧ foldOpsE v0 (eOps a) = some v := by
  intro a
  induction a with
  | add a b iha ihb =>
    intro v hv
    simp only [specEval] at hv
    cases ha : specEval a with
    | none => rw [ha] at hv; simp at hv
    | some x =>
      cases hb : specEval b with
      | none => rw [ha, hb] at hv; simp at hv
      | some y =>
        rw [ha, hb] at hv
        simp only [Option.some.injEq] at hv
        obtain ⟨v0, h0, hf⟩ := iha x ha
        refine ⟨v0, by simpa [eHead] using h0, ?_⟩
        simp [eOps, foldOpsE_append, hf, foldOpsE, hb, hv]
  | sub a b iha ihb =>
    intro v hv
    simp only [specEval] at hv
    cases ha : specEval a with
    | none => rw [ha] at hv; simp at hv
    | some x =>
      cases hb : specEval b with
      | none => rw [ha, hb] at hv; simp at hv
      | some y =>
        rw [ha, hb] at hv
        simp only [Option.some.injEq] at hv
        obtain ⟨v0, h0, hf⟩ := iha x ha
        refine ⟨v0, by simpa [eHead] using h0, ?_⟩
        simp [eOps, foldOpsE_append, hf, foldOpsE, hb, hv]
  | lit ds fr => intro v hv; exact ⟨v, by simpa [eHead] using hv, by simp [eOps, foldOpsE]⟩
  | neg a ih => intro v hv; exact ⟨v, by simpa [eHead] using hv, by simp [eOps, foldOpsE]⟩
  | pos a ih => intro v hv; exact ⟨v, by simpa [eHead] using hv, by simp [eOps, foldOpsE]⟩
  | mul a b iha ihb => intro v hv; exact ⟨v, by simpa [eHead] using hv, by simp [eOps, foldOpsE]⟩
  | div a b iha ihb => intro v hv; exact ⟨v, by simpa [eHead] using hv, by simp [eOps, foldOpsE]⟩
  | rem a b iha ihb => intro v hv; exact ⟨v, by simpa [eHead] using hv, by simp [eOps, foldOpsE]⟩

/-- The spec-side value of `a` is the fold of its term spine (the fold
checks each divisor/modulus against zero exactly as `specEval` does). -/
theorem specEval_T_flatten :
    ∀ (a : Aexp) (v : ℚ), specEval a = some v →
      ∃ v0, specEval (tHead a) = some v0 ∧ foldOpsT v0 (tOps a) = some v := by
  intro a
  induction a with
  | mul a b iha ihb =>
    intro v hv
    simp only [specEval] at hv
    cases ha : specEval a with
    | none => rw [ha] at hv; simp at hv
    | some x =>
      cases hb : specEval b with
      | none => rw [ha, hb] at hv; simp at hv
      | some y =>
        rw [ha, hb] at hv
        simp only [Option.some.injEq] at hv
        obtain ⟨v0, h0, hf⟩ := iha x ha
        refine ⟨v0, by simpa [tHead] using h0, ?_⟩
        simp [tOps, foldOpsT_append, hf, foldOpsT, hb, hv]
  | div a b iha ihb =>
    intro v hv
    simp only [specEval] at hv
    cases ha : specEval a with
    | none => rw [ha] at hv; simp at hv
    | some x =>
      cases hb : specEval b with
      | none => rw [ha, hb] at hv; simp at hv
      | some y =>
        rw [ha, hb] at hv
        dsimp only at hv
        by_cases hy : y = 0
        · rw [if_pos hy] at hv; simp at hv
        · rw [if_neg hy] at hv
          simp only [Option.some.injEq] at hv
          obtain ⟨v0, h0, hf⟩ := iha x ha
          refine ⟨v0, by simpa [tHead] using h0, ?_⟩
          simp [tOps, foldOpsT_append, hf, foldOpsT, hb, hv, hy]
  | rem a b iha ihb =>
    intro v hv
    simp only [specEval] at hv
    cases ha : specEval a with
    | none => rw [ha] at hv; simp at hv
    | some x =>
      cases hb : specEval b with
      | none => rw [ha, hb] at hv; simp at hv
      | some y =>
        rw [ha, hb] at hv
        dsimp only at hv
        by_cases hy : y = 0
        · rw [if_pos hy] at hv; simp at hv
        · rw [if_neg hy] at hv
          simp only [Option.some.injEq] at hv
          obtain ⟨v0, h0, hf⟩ := iha x ha
          refine ⟨v0, by simpa [tHead] using h0, ?_⟩
          simp [tOps, foldOpsT_append, hf, foldOpsT, hb, hv, hy]
  | lit ds fr => intro v hv; exact ⟨v, by simpa [tHead] using hv, by simp [tOps, foldOpsT]⟩
  | neg a ih => intro v hv; exact ⟨v, by simpa [tHead] using hv, by simp [tOps, foldOpsT]⟩
  | pos a ih => intro v hv; exact ⟨v, by simpa [tHead] using hv, by simp [tOps, foldOpsT]⟩
  | add a b iha ihb => intro v hv; exact ⟨v, by simpa [tHead] using hv, by simp [tOps, foldOpsT]⟩
  | sub a b iha ihb => intro v hv; exact ⟨v, by simpa [tHead] using hv, by simp [tOps, foldOpsT]⟩

/-- Well-formedness descends to the expression spine. -/
theorem wfE_flatten :
    ∀ a : Aexp, wfA a = true →
      wfA (eHead a) = true ∧ ∀ q ∈ eOps a, wfA q.2 = true := by
  intro a
  induction a with
  | add a b iha ihb =>
    intro h
    simp only [wfA, Bool.and_eq_true] at h
    obtain ⟨hh, hops⟩ := iha h.1
    refine ⟨by simpa [eHead] using hh, ?_⟩
    intro q hq
    simp only [eOps, List.mem_append, List.mem_singleton] at hq
    rcases hq with hq | hq
    · exact hops q hq
    · subst hq; exact h.2
  | sub a b iha ihb =>
    intro h
    simp only [wfA, Bool.and_eq_true] at h
    obtain ⟨hh, hops⟩ := iha h.1
    refine ⟨by simpa [eHead] using hh, ?_⟩
    intro q hq
    simp only [eOps, List.mem_append, List.mem_singleton] at hq
    rcases hq with hq | hq
    · exact hops q hq
    · subst hq; exact h.2
  | lit ds fr => intro h; exact ⟨by simpa [eHead] using h, by simp [eOps]⟩
  | neg a ih => intro h; exact ⟨by simpa [eHead] using h, by simp [eOps]⟩
  | pos a ih => intro h; exact ⟨by simpa [eHead] using h, by simp [eOps]⟩
  | mul a b iha ihb => intro h; exact ⟨by simpa [eHead] using h, by simp [eOps]⟩
  | div a b iha ihb => intro h; exact ⟨by simpa [eHead] using h, by simp [eOps]⟩
  | rem a b iha ihb => intro h; exact ⟨by simpa [eHead] using h, by simp [eOps]⟩

/-- Well-formedness descends to the term spine. -/
theorem wfT_flatten :
    ∀ a : Aexp, wfA a = true →
      wfA (tHead a) = true ∧ ∀ q ∈ tOps a, wfA q.2 = true := by
  intro a
  induction a with
  | mul a b iha ihb =>
    intro h
    simp only [wfA, Bool.and_eq_true] at h
    obtain ⟨hh, hops⟩ := iha h.1
    refine ⟨by simpa [tHead] using hh, ?_⟩
    intro q hq
    simp only [tOps, List.mem_append, List.mem_singleton] at hq
    rcases hq with hq | hq
    · exact hops q hq
    · subst hq; exact h.2
  | div a b iha ihb =>
    intro h
    simp only [wfA, Bool.and_eq_true] at h
    obtain ⟨hh, hops⟩ := iha h.1
    refine ⟨by simpa [tHead] using hh, ?_⟩
    intro q hq
    simp only [tOps, List.mem_append, List.mem_singleton] at hq
    rcases hq with hq | hq
    · exact hops q hq
    · subst hq; exact h.2
  | rem a b iha ihb =>
    intro h
    simp only [wfA, Bool.and_eq_true] at h
    obtain ⟨hh, hops⟩ := iha h.1
    refine ⟨by simpa [tHead] using hh, ?_⟩
    intro q hq
    simp only [tOps, List.mem_append, List.mem_singleton] at hq
    rcases hq with hq | hq
    · exact hops q hq
    · subst hq; exact h.2
  | lit ds fr => intro h; exact ⟨by simpa [tHead] using h, by simp [tOps]⟩
  | neg a ih => intro h; exact ⟨by simpa [tHead] using h, by simp [tOps]⟩
  | pos a ih => intro h; exact ⟨by simpa [tHead] using h, by simp [tOps]⟩
  | add a b iha ihb => intro h; exact ⟨by simpa [tHead] using h, by simp [tOps]⟩
  | sub a b iha ihb => intro h; exact ⟨by simpa [tHead] using h, by simp [tOps]⟩

/-- The operators of an expression spine are `+` and `-`. -/
theorem eOps_chars :
    ∀ a : Aexp, ∀ q ∈ eOps a, q.1 = '+' ∨ q.1 = '-' := by
  intro a
  induction a with
  | add a b iha ihb =>
    intro q hq
    simp only [eOps, List.mem_append, List.mem_singleton] at hq
    rcases hq with hq | hq
    · exact iha q hq
    · subst hq; exact Or.inl rfl
  | sub a b iha ihb =>
    intro q hq
    simp only [eOps, List.mem_append, List.mem_singleton] at hq
    rcases hq with hq | hq
    · exact iha q hq
    · subst hq; exact Or.inr rfl
  | lit ds fr => simp [eOps]
  | neg a ih => simp [eOps]
  | pos a ih => simp [eOps]
  | mul a b iha ihb => simp [eOps]
  | div a b iha ihb => simp [eOps]
  | rem a b iha ihb => simp [eOps]

/-- The operators of a term spine are `*`, `/` and `%`. -/
theorem tOps_chars :
    ∀ a : Aexp, ∀ q ∈ tOps a, q.1 = '*' ∨ q.1 = '/' ∨ q.1 = '%' := by
  intro a
  induction a with
  | mul a b iha ihb =>
    intro q hq
    simp only [tOps, List.mem_append, List.mem_singleton] at hq
    rcases hq with hq | hq
    · exact iha q hq
    · subst hq; exact Or.inl rfl
  | div a b iha ihb =>
    intro q hq
    simp only [tOps, List.mem_append, List.mem_singleton] at hq
    rcases hq with hq | hq
    · exact iha q hq
    · subst hq; exact Or.inr (Or.inl rfl)
  | rem a b iha ihb =>
    intro q hq
    simp only [tOps, List.mem_append, List.mem_singleton] at hq
    rcases hq with hq | hq
    · exact iha q hq
    · subst hq; exact Or.inr (Or.inr rfl)
  | lit ds fr => simp [tOps]
  | neg a ih => simp [tOps]
  | pos a ih => simp [tOps]
  | add a b iha ihb => simp [tOps]
  | sub a b iha ihb => simp [tOps]

/-- A spine tail's text with its stop character splits as the first
pending character and the remaining characters (term level). -/
theorem opsRenderT_shape (ops : List (Char × Aexp)) (c : Char)
    (rest0 : List Char) :
    opsRenderT ops ++ c :: rest0 = headC ops c :: tailT ops c rest0 := by
  cases ops with
  | nil => simp [opsRenderT, headC, tailT]
  | cons q ops2 =>
    obtain ⟨c1, p1⟩ := q
    simp [opsRenderT, headC, tailT]

/-- A spine tail's text with its stop character splits as the first
pending character and the remaining characters (expression level). -/
theorem opsRenderE_shape (ops : List (Char × Aexp)) (c : Char)
    (rest0 : List Char) :
    opsRenderE ops ++ c :: rest0 = headC ops c :: tailE ops c rest0 := by
  cases ops with
  | nil => simp [opsRenderE, headC, tailE]
  | cons q ops2 =>
    obtain ⟨c1, t1⟩ := q
    simp [opsRenderE, headC, tailE]

/-- The pending character after a term head is a primary stop
character. -/
theorem headC_pStop (ops : List (Char × Aexp)) (c : Char)
    (hc : c ∈ tStops) (hops : ∀ q ∈ ops, q.1 = '*' ∨ q.1 = '/' ∨ q.1 = '%') :
    headC ops c ∈ pStops := by
  cases ops with
  | nil => exact tStops_sub c hc
  | cons q ops2 =>
    obtain ⟨c1, p1⟩ := q
    have h := hops (c1, p1) (by simp)
    simp only at h
    rcases h with h | h | h <;> subst h <;> simp [headC, pStops]

/-- The pending character after an expression head is a term stop
character. -/
theorem headC_tStop (ops : List (Char × Aexp)) (c : Char)
    (hc : c ∈ eStops) (hops : ∀ q ∈ ops, q.1 = '+' ∨ q.1 = '-') :
    headC ops c ∈ tStops := by
  cases ops with
  | nil => exact eStops_sub c hc
  | cons q ops2 =>
    obtain ⟨c1, t1⟩ := q
    have h := hops (c1, t1) (by simp)
    simp only at h
    rcases h with h | h <;> subst h <;> simp [headC, tStops]

/-- Every statement has positive size. -/
theorem sizeA_pos : ∀ a : Aexp, 1 ≤ sizeA a := by
  intro a
  cases a <;> simp [sizeA]

/-- The expression-spine head is no larger than the statement. -/
theorem eHead_size : ∀ a : Aexp, sizeA (eHead a) ≤ sizeA a := by
  intro a
  induction a with
  | add a b iha ihb => simp only [eHead, sizeA]; omega
  | sub a b iha ihb => simp only [eHead, sizeA]; omega
  | lit ds fr => simp [eHead]
  | neg a ih => simp [eHead]
  | pos a ih => simp [eHead]
  | mul a b iha ihb => simp [eHead]
  | div a b iha ihb => simp [eHead]
  | rem a b iha ihb => simp [eHead]

/-- The term-spine head is no larger than the statement. -/
theorem tHead_size : ∀ a : Aexp, sizeA (tHead a) ≤ sizeA a := by
  intro a
  induction a with
  | mul a b iha ihb => simp only [tHead, sizeA]; omega
  | div a b iha ihb => simp only [tHead, sizeA]; omega
  | rem a b iha ihb => simp only [tHead, sizeA]; omega
  | lit ds fr => simp [tHead]
  | neg a ih => simp [tHead]
  | pos a ih => simp [tHead]
  | add a b iha ihb => simp [tHead]
  | sub a b iha ihb => simp [tHead]

/-- Members of the expression spine are strictly smaller than the
statement. -/
theorem eOps_size : ∀ a : Aexp, ∀ q ∈ eOps a, sizeA q.2 < sizeA a := by
  intro a
  induction a with
  | add a b iha ihb =>
    intro q hq
    simp only [eOps, List.mem_append, List.mem_singleton] at hq
    rcases hq with hq | hq
    · have := iha q hq; simp only [sizeA]; omega
    · subst hq; simp only [sizeA]; omega
  | sub a b iha ihb =>
    intro q hq
    simp only [eOps, List.mem_append, List.mem_singleton] at hq
    rcases hq with hq | hq
    · have := iha q hq; simp only [sizeA]; omega
    · subst hq; simp only [sizeA]; omega
  | lit ds fr => simp [eOps]
  | neg a ih => simp [eOps]
  | pos a ih => simp [eOps]
  | mul a b iha ihb => simp [eOps]
  | div a b iha ihb => simp [eOps]
  | rem a b iha ihb => simp [eOps]

/-- Members of the term spine are strictly smaller than the statement. -/
theorem tOps_size : ∀ a : Aexp, ∀ q ∈ tOps a, sizeA q.2 < sizeA a := by
  intro a
  induction a with
  | mul a b iha ihb =>
    intro q hq
    simp only [tOps, List.mem_append, List.mem_singleton] at hq
    rcases hq with hq | hq
    · have := iha q hq; simp only [sizeA]; omega
    · subst hq; simp only [sizeA]; omega
  | div a b iha ihb =>
    intro q hq
    simp only [tOps, List.mem_append, List.mem_singleton] at hq
    rcases hq with hq | hq
    · have := iha q hq; simp only [sizeA]; omega
    · subst hq; simp only [sizeA]; omega
  | rem a b iha ihb =>
    intro q hq
    simp only [tOps, List.mem_append, List.mem_singleton] at hq
    rcases hq with hq | hq
    · have := iha q hq; simp only [sizeA]; omega
    · subst hq; simp only [sizeA]; omega
  | lit ds fr => simp [tOps]
  | neg a ih => simp [tOps]
  | pos a ih => simp [tOps]
  | add a b iha ihb => simp [tOps]
  | sub a b iha ihb => simp [tOps]


/-- Kind of a kind-only token. -/
theorem ofKind_kind (c : Char) : (Token.ofKind c).kind = c := rfl

/-- Head character of a non-empty spine tail. -/
theorem headC_cons (x : Char) (y : Aexp) (l : List (Char × Aexp)) (c : Char) :
    headC ((x, y) :: l) c = x := rfl

/-- Simulation of the `term` loop over a term spine: entered with the
pending operator token (or the stop token when the spine is exhausted) and
the remaining text, it folds the spine left-to-right and pushes the stop
token back. -/
theorem TLoopSim :
    ∀ ops : List (Char × Aexp),
      (∀ q ∈ ops, PhiP q.2) →
      (∀ q ∈ ops, wfA q.2 = true) →
      (∀ q ∈ ops, q.1 = '*' ∨ q.1 = '/' ∨ q.1 = '%') →
      ∀ c ∈ tStops, ∀ (rest0 : List Char) (vars : List Variable)
        (left v : ℚ), foldOpsT left ops = some v →
        ∃ f, ∀ g, f ≤ g →
          termLoop g left (Token.ofKind (headC ops c))
              ⟨⟨none, tailT ops c rest0⟩, vars⟩ =
            .ok v ⟨⟨some (Token.ofKind c), rest0⟩, vars⟩ := by
  intro ops
  induction ops with
  | nil =>
    intro _ _ _ c hc rest0 vars left v hfold
    simp only [foldOpsT, Option.some.injEq] at hfold
    subst hfold
    refine ⟨1, ?_⟩
    intro g hg
    obtain ⟨g1, rfl⟩ : ∃ g1, g = g1 + 1 := ⟨g - 1, by omega⟩
    fin_cases hc <;>
      simp [termLoop, run, Token.ofKind, headC, tailT, putbackT,
        Token_stream.putback]
  | cons q ops2 ih =>
    intro hP hw hops c hc rest0 vars left v hfold
    obtain ⟨c1, p1⟩ := q
    have hc1 := hops (c1, p1) (by simp)
    simp only at hc1
    simp only [foldOpsT] at hfold
    cases hp1 : specEval p1 with
    | none => rw [hp1] at hfold; simp at hfold
    | some w =>
      rw [hp1] at hfold
      dsimp only at hfold
      have hPhi := hP (c1, p1) (by simp)
      have hwf1 := hw (c1, p1) (by simp)
      simp only at hPhi hwf1
      have hstop : headC ops2 c ∈ pStops :=
        headC_pStop ops2 c hc (fun q hq => hops q (by simp [hq]))
      obtain ⟨-, -, hws, hop⟩ := pStops_facts _ hstop
      obtain ⟨f1, h1⟩ :=
        hPhi hwf1 w hp1 (headC ops2 c) (tailT ops2 c rest0) vars hstop
      have hin : tailT ((c1, p1) :: ops2) c rest0 =
          renderP p1 ++ headC ops2 c :: tailT ops2 c rest0 := by
        rw [show tailT ((c1, p1) :: ops2) c rest0 =
          renderP p1 ++ (opsRenderT ops2 ++ c :: rest0) from rfl,
          opsRenderT_shape]
      rcases hc1 with h | h | h
      · subst h
        rw [if_pos rfl] at hfold
        obtain ⟨f2, h2⟩ := ih (fun q hq => hP q (by simp [hq]))
          (fun q hq => hw q (by simp [hq])) (fun q hq => hops q (by simp [hq]))
          c hc rest0 vars (left * w) v hfold
        refine ⟨max f1 f2 + 1, ?_⟩
        intro g hg
        obtain ⟨g1, rfl⟩ : ∃ g1, g = g1 + 1 := ⟨g - 1, by omega⟩
        have hprim := h1 g1 (by omega)
        simp only [primary] at hprim
        have hloop := h2 g1 (by omega)
        simp only [termLoop] at hloop
        rw [hin]
        have hget := getT_op (headC ops2 c) (tailT ops2 c rest0) vars hws hop
        simp [termLoop, run, ofKind_kind, headC_cons, hprim, hget, hloop]
      · subst h
        rw [if_neg (by decide)] at hfold
        by_cases hw0 : w = 0
        · rw [if_pos hw0] at hfold; simp at hfold
        · rw [if_neg hw0, if_pos rfl] at hfold
          obtain ⟨f2, h2⟩ := ih (fun q hq => hP q (by simp [hq]))
            (fun q hq => hw q (by simp [hq]))
            (fun q hq => hops q (by simp [hq]))
            c hc rest0 vars (left / w) v hfold
          refine ⟨max f1 f2 + 1, ?_⟩
          intro g hg
          obtain ⟨g1, rfl⟩ : ∃ g1, g = g1 + 1 := ⟨g - 1, by omega⟩
          have hprim := h1 g1 (by omega)
          simp only [primary] at hprim
          have hloop := h2 g1 (by omega)
          simp only [termLoop] at hloop
          rw [hin]
          have hget := getT_op (headC ops2 c) (tailT ops2 c rest0) vars hws hop
          simp [termLoop, run, ofKind_kind, headC_cons, hprim, hget, hw0,
            hloop]
      · subst h
        rw [if_neg (by decide)] at hfold
        by_cases hw0 : w = 0
        · rw [if_pos hw0] at hfold; simp at hfold
        · rw [if_neg hw0, if_neg (by decide)] at hfold
          obtain ⟨f2, h2⟩ := ih (fun q hq => hP q (by simp [hq]))
            (fun q hq => hw q (by simp [hq]))
            (fun q hq => hops q (by simp [hq]))
            c hc rest0 vars (fmodQ left w) v hfold
          refine ⟨max f1 f2 + 1, ?_⟩
          intro g hg
          obtain ⟨g1, rfl⟩ : ∃ g1, g = g1 + 1 := ⟨g - 1, by omega⟩
          have hprim := h1 g1 (by omega)
          simp only [primary] at hprim
          have hloop := h2 g1 (by omega)
          simp only [termLoop] at hloop
          rw [hin]
          have hget := getT_op (headC ops2 c) (tailT ops2 c rest0) vars hws hop
          simp [termLoop, run, ofKind_kind, headC_cons, hprim, hget, hw0,
            hloop]

/-- Simulation of the `expression` loop over an expression spine. -/
theorem ELoopSim :
    ∀ ops : List (Char × Aexp),
      (∀ q ∈ ops, PhiT q.2) →
      (∀ q ∈ ops, wfA q.2 = true) →
      (∀ q ∈ ops, q.1 = '+' ∨ q.1 = '-') →
      ∀ c ∈ eStops, ∀ (rest0 : List Char) (vars : List Variable)
        (left v : ℚ), foldOpsE left ops = some v →
        ∃ f, ∀ g, f ≤ g →
          exprLoop g left (Token.ofKind (headC ops c))
              ⟨⟨none, tailE ops c rest0⟩, vars⟩ =
            .ok v ⟨⟨some (Token.ofKind c), rest0⟩, vars⟩ := by
  intro ops
  induction ops with
  | nil =>
    intro _ _ _ c hc rest0 vars left v hfold
    simp only [foldOpsE, Option.some.injEq] at hfold
    subst hfold
    refine ⟨1, ?_⟩
    intro g hg
    obtain ⟨g1, rfl⟩ : ∃ g1, g = g1 + 1 := ⟨g - 1, by omega⟩
    fin_cases hc <;>
      simp [exprLoop, run, Token.ofKind, headC, tailE, putbackT,
        Token_stream.putback]
  | cons q ops2 ih =>
    intro hT hw hops c hc rest0 vars left v hfold
    obtain ⟨c1, t1⟩ := q
    have hc1 := hops (c1, t1) (by simp)
    simp only at hc1
    simp only [foldOpsE] at hfold
    cases ht1 : specEval t1 with
    | none => rw [ht1] at hfold; simp at hfold
    | some w =>
      rw [ht1] at hfold
      dsimp only at hfold
      have hPhi := hT (c1, t1) (by simp)
      have hwf1 := hw (c1, t1) (by simp)
      simp only at hPhi hwf1
      have hstop : headC ops2 c ∈ tStops :=
        headC_tStop ops2 c hc (fun q hq => hops q (by simp [hq]))
      obtain ⟨-, -, hws, hop⟩ := pStops_facts _ (tStops_sub _ hstop)
      obtain ⟨f1, h1⟩ :=
        hPhi hwf1 w ht1 (headC ops2 c) (tailE ops2 c rest0) vars hstop
      have hin : tailE ((c1, t1) :: ops2) c rest0 =
          renderT t1 ++ headC ops2 c :: tailE ops2 c rest0 := by
        rw [show tailE ((c1, t1) :: ops2) c rest0 =
          renderT t1 ++ (opsRenderE ops2 ++ c :: rest0) from rfl,
          opsRenderE_shape]
      rcases hc1 with h | h
      · subst h
        rw [if_pos rfl] at hfold
        obtain ⟨f2, h2⟩ := ih (fun q hq => hT q (by simp [hq]))
          (fun q hq => hw q (by simp [hq])) (fun q hq => hops q (by simp [hq]))
          c hc rest0 vars (left + w) v hfold
        refine ⟨max f1 f2 + 1, ?_⟩
        intro g hg
        obtain ⟨g1, rfl⟩ : ∃ g1, g = g1 + 1 := ⟨g - 1, by omega⟩
        have hterm := h1 g1 (by omega)
        simp only [term] at hterm
        have hloop := h2 g1 (by omega)
        simp only [exprLoop] at hloop
        rw [hin]
        simp [exprLoop, run, ofKind_kind, headC_cons, hterm, getT_pending,
          hloop]
      · subst h
        rw [if_neg (by decide)] at hfold
        obtain ⟨f2, h2⟩ := ih (fun q hq => hT q (by simp [hq]))
          (fun q hq => hw q (by simp [hq])) (fun q hq => hops q (by simp [hq]))
          c hc rest0 vars (left - w) v hfold
        refine ⟨max f1 f2 + 1, ?_⟩
        intro g hg
        obtain ⟨g1, rfl⟩ : ∃ g1, g = g1 + 1 := ⟨g - 1, by omega⟩
        have hterm := h1 g1 (by omega)
        simp only [term] at hterm
        have hloop := h2 g1 (by omega)
        simp only [exprLoop] at hloop
        rw [hin]
        simp [exprLoop, run, ofKind_kind, headC_cons, hterm, getT_pending,
          hloop]


/-- A term whose spine satisfies the primary specification satisfies the
term specification: `term` parses the head primary, then its loop folds
the spine and pushes the stop token back. -/
theorem PhiT_main (a : Aexp) (hHead : PhiP (tHead a))
    (hOps : ∀ q ∈ tOps a, PhiP q.2) : PhiT a := by
  intro hwf v hv c rest0 vars hc
  obtain ⟨hwfH, hwfOps⟩ := wfT_flatten a hwf
  obtain ⟨v0, hv0, hfold⟩ := specEval_T_flatten a v hv
  have hchars := tOps_chars a
  have hstop : headC (tOps a) c ∈ pStops := headC_pStop _ c hc hchars
  obtain ⟨-, -, hws, hop⟩ := pStops_facts _ hstop
  obtain ⟨f1, h1⟩ := hHead hwfH v0 hv0 (headC (tOps a) c)
    (tailT (tOps a) c rest0) vars hstop
  obtain ⟨f2, h2⟩ := TLoopSim (tOps a) hOps hwfOps hchars c hc rest0 vars
    v0 v hfold
  refine ⟨max f1 f2 + 1, ?_⟩
  intro g hg
  obtain ⟨g1, rfl⟩ : ∃ g1, g = g1 + 1 := ⟨g - 1, by omega⟩
  have hprim := h1 g1 (by omega)
  simp only [primary] at hprim
  have hloop := h2 g1 (by omega)
  simp only [termLoop] at hloop
  have hget := getT_op (headC (tOps a) c) (tailT (tOps a) c rest0) vars hws hop
  have hin : renderT a ++ c :: rest0 =
      renderP (tHead a) ++ headC (tOps a) c :: tailT (tOps a) c rest0 := by
    rw [renderT_flatten a, List.append_assoc, opsRenderT_shape]
  rw [hin]
  simp [term, run, hprim, hget, hloop]

/-- An expression whose spine satisfies the term specification satisfies
the expression specification. -/
theorem PhiE_main (a : Aexp) (hHead : PhiT (eHead a))
    (hOps : ∀ q ∈ eOps a, PhiT q.2) : PhiE a := by
  intro hwf v hv c rest0 vars hc
  obtain ⟨hwfH, hwfOps⟩ := wfE_flatten a hwf
  obtain ⟨v0, hv0, hfold⟩ := specEval_E_flatten a v hv
  have hchars := eOps_chars a
  have hstop : headC (eOps a) c ∈ tStops := headC_tStop _ c hc hchars
  obtain ⟨f1, h1⟩ := hHead hwfH v0 hv0 (headC (eOps a) c)
    (tailE (eOps a) c rest0) vars hstop
  obtain ⟨f2, h2⟩ := ELoopSim (eOps a) hOps hwfOps hchars c hc rest0 vars
    v0 v hfold
  refine ⟨max f1 f2 + 1, ?_⟩
  intro g hg
  obtain ⟨g1, rfl⟩ : ∃ g1, g = g1 + 1 := ⟨g - 1, by omega⟩
  have hterm := h1 g1 (by omega)
  simp only [term] at hterm
  have hloop := h2 g1 (by omega)
  simp only [exprLoop] at hloop
  have hin : renderE a ++ c :: rest0 =
      renderT (eHead a) ++ headC (eOps a) c :: tailE (eOps a) c rest0 := by
    rw [renderE_flatten a, List.append_assoc, opsRenderE_shape]
  rw [hin]
  simp [expression, run, hterm, getT_pending, hloop]

/-- Literals satisfy the primary specification: the lexer reads the whole
literal and `primary` returns its exact value. -/
theorem PhiP_lit (ds fr : List (Fin 10)) : PhiP (.lit ds fr) := by
  intro hwf v hv c rest0 vars hc
  have hwf2 : ds ≠ [] ∨ fr ≠ [] := by
    by_cases hds : ds = []
    · right
      intro hfr
      rw [hds, hfr] at hwf
      simp [wfA] at hwf
    · left
      exact hds
  simp only [specEval, Option.some.injEq] at hv
  obtain ⟨hcd, hcp, hws, hop⟩ := pStops_facts c hc
  have hget := getT_lit ds fr c rest0 vars hwf2 hcd hcp
  refine ⟨1, ?_⟩
  intro g hg
  obtain ⟨g1, rfl⟩ : ∃ g1, g = g1 + 1 := ⟨g - 1, by omega⟩
  have hren : renderP (.lit ds fr) = renderLit ds fr := by simp [renderP]
  rw [hren]
  simp [primary, run, hget, number, hv]

/-- Unary minus preserves the primary specification. -/
theorem PhiP_neg (a : Aexp) (hPa : PhiP a) : PhiP (.neg a) := by
  intro hwf v hv c rest0 vars hc
  simp only [wfA] at hwf
  simp only [specEval] at hv
  cases ha : specEval a with
  | none => rw [ha] at hv; simp at hv
  | some x =>
    rw [ha] at hv
    simp only [Option.some.injEq] at hv
    obtain ⟨f1, h1⟩ := hPa hwf x ha c rest0 vars hc
    refine ⟨f1 + 1, ?_⟩
    intro g hg
    obtain ⟨g1, rfl⟩ : ∃ g1, g = g1 + 1 := ⟨g - 1, by omega⟩
    have hprim := h1 g1 (by omega)
    simp only [primary] at hprim
    have hren : renderP (.neg a) ++ c :: rest0 =
        '-' :: (renderP a ++ c :: rest0) := by simp [renderP]
    rw [hren]
    have hget := getT_op '-' (renderP a ++ c :: rest0) vars (by decide)
      (by decide)
    simp [primary, run, ofKind_kind, number, name, hget, hprim, hv]

/-- Unary plus preserves the primary specification. -/
theorem PhiP_pos (a : Aexp) (hPa : PhiP a) : PhiP (.pos a) := by
  intro hwf v hv c rest0 vars hc
  simp only [wfA] at hwf
  simp only [specEval] at hv
  obtain ⟨f1, h1⟩ := hPa hwf v hv c rest0 vars hc
  refine ⟨f1 + 1, ?_⟩
  intro g hg
  obtain ⟨g1, rfl⟩ : ∃ g1, g = g1 + 1 := ⟨g - 1, by omega⟩
  have hprim := h1 g1 (by omega)
  simp only [primary] at hprim
  have hren : renderP (.pos a) ++ c :: rest0 =
      '+' :: (renderP a ++ c :: rest0) := by simp [renderP]
  rw [hren]
  have hget := getT_op '+' (renderP a ++ c :: rest0) vars (by decide)
    (by decide)
  simp [primary, run, ofKind_kind, number, name, hget, hprim]

/-- A binary node rendered as a parenthesised expression satisfies the
primary specification whenever it satisfies the expression
specification. -/
theorem PhiP_binary (a : Aexp) (hren : renderP a = '(' :: renderE a ++ [')'])
    (hE : PhiE a) : PhiP a := by
  intro hwf v hv c rest0 vars hc
  obtain ⟨f1, h1⟩ := hE hwf v hv ')' (c :: rest0) vars (by decide)
  refine ⟨f1 + 1, ?_⟩
  intro g hg
  obtain ⟨g1, rfl⟩ : ∃ g1, g = g1 + 1 := ⟨g - 1, by omega⟩
  have hexp := h1 g1 (by omega)
  simp only [expression] at hexp
  have hin : renderP a ++ c :: rest0 =
      '(' :: (renderE a ++ ')' :: c :: rest0) := by
    rw [hren]
    simp
  rw [hin]
  have hget1 := getT_op '(' (renderE a ++ ')' :: c :: rest0) vars (by decide)
    (by decide)
  simp [primary, run, ofKind_kind, hget1, hexp, getT_pending]

/-- Every well-formed statement satisfies the three grammar-level
specifications, by strong induction on its size. -/
theorem mainSim : ∀ n (a : Aexp), sizeA a ≤ n → PhiP a ∧ PhiT a ∧ PhiE a := by
  intro n
  induction n with
  | zero =>
    intro a ha
    have := sizeA_pos a
    omega
  | succ n ih =>
    have hTofP : ∀ b : Aexp, tHead b = b → tOps b = [] → PhiP b → PhiT b := by
      intro b h1 h2 hP
      refine PhiT_main b ?_ ?_
      · rw [h1]; exact hP
      · rw [h2]; intro q hq; simp at hq
    have hEofT : ∀ b : Aexp, eHead b = b → eOps b = [] → PhiT b → PhiE b := by
      intro b h1 h2 hT
      refine PhiE_main b ?_ ?_
      · rw [h1]; exact hT
      · rw [h2]; intro q hq; simp at hq
    intro a ha
    cases a with
    | lit ds fr =>
      have hP := PhiP_lit ds fr
      have hT := hTofP _ (by simp [tHead]) (by simp [tOps]) hP
      have hE := hEofT _ (by simp [eHead]) (by simp [eOps]) hT
      exact ⟨hP, hT, hE⟩
    | neg a2 =>
      have ha2 : sizeA a2 ≤ n := by simp only [sizeA] at ha; omega
      have hP := PhiP_neg a2 (ih a2 ha2).1
      have hT := hTofP _ (by simp [tHead]) (by simp [tOps]) hP
      have hE := hEofT _ (by simp [eHead]) (by simp [eOps]) hT
      exact ⟨hP, hT, hE⟩
    | pos a2 =>
      have ha2 : sizeA a2 ≤ n := by simp only [sizeA] at ha; omega
      have hP := PhiP_pos a2 (ih a2 ha2).1
      have hT := hTofP _ (by simp [tHead]) (by simp [tOps]) hP
      have hE := hEofT _ (by simp [eHead]) (by simp [eOps]) hT
      exact ⟨hP, hT, hE⟩
    | add a2 b2 =>
      have hsz : sizeA a2 + sizeA b2 + 1 ≤ n + 1 := by
        simpa [sizeA] using ha
      have hE : PhiE (.add a2 b2) := by
        refine PhiE_main _ ?_ ?_
        · rw [show eHead (Aexp.add a2 b2) = eHead a2 from by simp [eHead]]
          have hle : sizeA (eHead a2) ≤ n := by
            have h1 := eHead_size a2
            have h2 := sizeA_pos b2
            omega
          exact (ih _ hle).2.1
        · intro q hq
          have hlt := eOps_size (Aexp.add a2 b2) q hq
          have hle : sizeA q.2 ≤ n := by
            simp only [sizeA] at hlt
            omega
          exact (ih _ hle).2.1
      have hP : PhiP (.add a2 b2) :=
        PhiP_binary _ (by simp [renderP, renderE]) hE
      have hT := hTofP _ (by simp [tHead]) (by simp [tOps]) hP
      exact ⟨hP, hT, hE⟩
    | sub a2 b2 =>
      have hsz : sizeA a2 + sizeA b2 + 1 ≤ n + 1 := by
        simpa [sizeA] using ha
      have hE : PhiE (.sub a2 b2) := by
        refine PhiE_main _ ?_ ?_
        · rw [show eHead (Aexp.sub a2 b2) = eHead a2 from by simp [eHead]]
          have hle : sizeA (eHead a2) ≤ n := by
            have h1 := eHead_size a2
            have h2 := sizeA_pos b2
            omega
          exact (ih _ hle).2.1
        · intro q hq
          have hlt := eOps_size (Aexp.sub a2 b2) q hq
          have hle : sizeA q.2 ≤ n := by
            simp only [sizeA] at hlt
            omega
          exact (ih _ hle).2.1
      have hP : PhiP (.sub a2 b2) :=
        PhiP_binary _ (by simp [renderP, renderE]) hE
      have hT := hTofP _ (by simp [tHead]) (by simp [tOps]) hP
      exact ⟨hP, hT, hE⟩
    | mul a2 b2 =>
      have hsz : sizeA a2 + sizeA b2 + 1 ≤ n + 1 := by
        simpa [sizeA] using ha
      have hT : PhiT (.mul a2 b2) := by
        refine PhiT_main _ ?_ ?_
        · rw [show tHead (Aexp.mul a2 b2) = tHead a2 from by simp [tHead]]
          have hle : sizeA (tHead a2) ≤ n := by
            have h1 := tHead_size a2
            have h2 := sizeA_pos b2
            omega
          exact (ih _ hle).1
        · intro q hq
          have hlt := tOps_size (Aexp.mul a2 b2) q hq
          have hle : sizeA q.2 ≤ n := by
            simp only [sizeA] at hlt
            omega
          exact (ih _ hle).1
      have hE := hEofT _ (by simp [eHead]) (by simp [eOps]) hT
      have hP : PhiP (.mul a2 b2) :=
        PhiP_binary _ (by simp [renderP, renderE, renderT]) hE
      exact ⟨hP, hT, hE⟩
    | div a2 b2 =>
      have hsz : sizeA a2 + sizeA b2 + 1 ≤ n + 1 := by
        simpa [sizeA] using ha
      have hT : PhiT (.div a2 b2) := by
        refine PhiT_main _ ?_ ?_
        · rw [show tHead (Aexp.div a2 b2) = tHead a2 from by simp [tHead]]
          have hle : sizeA (tHead a2) ≤ n := by
            have h1 := tHead_size a2
            have h2 := sizeA_pos b2
            omega
          exact (ih _ hle).1
        · intro q hq
          have hlt := tOps_size (Aexp.div a2 b2) q hq
          have hle : sizeA q.2 ≤ n := by
            simp only [sizeA] at hlt
            omega
          exact (ih _ hle).1
      have hE := hEofT _ (by simp [eHead]) (by simp [eOps]) hT
      have hP : PhiP (.div a2 b2) :=
        PhiP_binary _ (by simp [renderP, renderE, renderT]) hE
      exact ⟨hP, hT, hE⟩
    | rem a2 b2 =>
      have hsz : sizeA a2 + sizeA b2 + 1 ≤ n + 1 := by
        simpa [sizeA] using ha
      have hT : PhiT (.rem a2 b2) := by
        refine PhiT_main _ ?_ ?_
        · rw [show tHead (Aexp.rem a2 b2) = tHead a2 from by simp [tHead]]
          have hle : sizeA (tHead a2) ≤ n := by
            have h1 := tHead_size a2
            have h2 := sizeA_pos b2
            omega
          exact (ih _ hle).1
        · intro q hq
          have hlt := tOps_size (Aexp.rem a2 b2) q hq
          have hle : sizeA q.2 ≤ n := by
            simp only [sizeA] at hlt
            omega
          exact (ih _ hle).1
      have hE := hEofT _ (by simp [eHead]) (by simp [eOps]) hT
      have hP : PhiP (.rem a2 b2) :=
        PhiP_binary _ (by simp [renderP, renderE, renderT]) hE
      exact ⟨hP, hT, hE⟩


/-- A successful `expression` run opens by reading one token, and that
token's kind is one of the five the `primary` switch accepts — never the
declaration keyword. -/
theorem expression_ok_first {g : Nat} {s : CalcState} {v : ℚ}
    {s2 : CalcState} (h : expression g s = .ok v s2) :
    ∃ t s1, getT s = .ok t s1 ∧ t.kind ≠ letk := by
  simp only [expression] at h
  cases g with
  | zero => simp [run] at h
  | succ g1 =>
    simp only [run] at h
    cases ht : run g1 .termM s with
    | err e s3 => rw [ht] at h; simp at h
    | ok left s3 =>
      clear h
      cases g1 with
      | zero => simp [run] at ht
      | succ g2 =>
        simp only [run] at ht
        cases hp : run g2 .primaryM s with
        | err e s4 => rw [hp] at ht; simp at ht
        | ok d s4 =>
          clear ht
          cases g2 with
          | zero => simp [run] at hp
          | succ g3 =>
            simp only [run] at hp
            cases hg : getT s with
            | err e s5 => rw [hg] at hp; simp at hp
            | ok t s5 =>
              refine ⟨t, s5, rfl, ?_⟩
              rw [hg] at hp
              dsimp only at hp
              by_cases k1 : t.kind = '('
              · rw [k1]; decide
              · by_cases k2 : t.kind = number
                · rw [k2]; decide
                · by_cases k3 : t.kind = '-'
                  · rw [k3]; decide
                  · by_cases k4 : t.kind = '+'
                    · rw [k4]; decide
                    · by_cases k5 : t.kind = name
                      · rw [k5]; decide
                      · rw [if_neg k1, if_neg k2, if_neg k3, if_neg k4,
                          if_neg k5] at hp
                        simp at hp

/-- A successful `get` on a stream with no pending token leaves no pending
token and the same table. -/
theorem getT_none_ok {input : List Char} {vars : List Variable} {t : Token}
    {s1 : CalcState} (h : getT ⟨⟨none, input⟩, vars⟩ = .ok t s1) :
    ∃ cs1, s1 = ⟨⟨none, cs1⟩, vars⟩ := by
  simp only [getT, Token_stream.get] at h
  cases hl : lexOne input with
  | mk r cs =>
    rw [hl] at h
    cases r with
    | error e => simp at h
    | ok t2 =>
      simp only [Res.ok.injEq] at h
      exact ⟨cs, h.2.symm⟩

/-- The run of `primary` depends on the entry state only through its first
`get`. -/
theorem run_primary_congr {g : Nat} {sA sB : CalcState}
    (h : getT sA = getT sB) :
    run (g + 1) .primaryM sA = run (g + 1) .primaryM sB := by
  simp only [run]
  rw [h]

/-- The run of `term` depends on the entry state only through its first
`get`. -/
theorem run_term_congr {g : Nat} {sA sB : CalcState}
    (h : getT sA = getT sB) :
    run (g + 2) .termM sA = run (g + 2) .termM sB := by
  simp only [run]
  rw [h]

/-- The run of `expression` depends on the entry state only through its
first `get`. -/
theorem run_expr_congr {g : Nat} {sA sB : CalcState}
    (h : getT sA = getT sB) :
    run (g + 3) .exprM sA = run (g + 3) .exprM sB := by
  simp only [run]
  rw [h]

/-- One unfolding step of `statement`. -/
theorem statement_step (f : Nat) (s : CalcState) :
    statement (f + 1) s =
      match getT s with
      | .err e s1 => .err e s1
      | .ok t s1 =>
        if t.kind = letk then run f .declarationM s1
        else
          match putbackT t s1 with
          | .err e s2 => .err e s2
          | .ok _ s2 => run f .exprM s2 := rfl

/-- C1: for every well-formed arithmetic statement without identifiers
(an `Aexp` rendered to text by `renderE`), evaluating it through
`statement` — which delegates through `expression`, `term` and `primary` —
yields exactly the mathematically correct precedence-respecting value
`specEval` assigns it, for some sufficient fuel, consuming the whole text
and pushing the final `;` token back. -/
theorem claim_C1 (a : Aexp) (hwf : wfA a = true) (v : ℚ)
    (hv : specEval a = some v) (vars : List Variable) :
    ∃ f, statement f ⟨⟨none, renderE a ++ [';']⟩, vars⟩ =
      .ok v ⟨⟨some (Token.ofKind ';'), []⟩, vars⟩ := by
  obtain ⟨-, -, hE⟩ := mainSim (sizeA a) a le_rfl
  obtain ⟨f1, h1⟩ := hE hwf v hv ';' [] vars (by decide)
  have hexp0 : expression f1 ⟨⟨none, renderE a ++ [';']⟩, vars⟩ =
      .ok v ⟨⟨some (Token.ofKind ';'), []⟩, vars⟩ := h1 f1 le_rfl
  obtain ⟨t1, s1, hg, hk⟩ := expression_ok_first hexp0
  obtain ⟨cs1, rfl⟩ := getT_none_ok hg
  refine ⟨f1 + 4, ?_⟩
  have hgB : getT ⟨⟨some t1, cs1⟩, vars⟩ = .ok t1 ⟨⟨none, cs1⟩, vars⟩ :=
    getT_pending t1 cs1 vars
  have hcong : run (f1 + 3) .exprM ⟨⟨some t1, cs1⟩, vars⟩ =
      run (f1 + 3) .exprM ⟨⟨none, renderE a ++ [';']⟩, vars⟩ := by
    refine run_expr_congr ?_
    rw [hgB, hg]
  have hputb := putbackT_none t1 cs1 vars
  have hfin : run (f1 + 3) .exprM ⟨⟨none, renderE a ++ [';']⟩, vars⟩ =
      .ok v ⟨⟨some (Token.ofKind ';'), []⟩, vars⟩ := by
    have h2 := h1 (f1 + 3) (by omega)
    simpa [expression] using h2
  rw [show f1 + 4 = (f1 + 3) + 1 from rfl, statement_step, hg]
  simp [hk, hputb, hcong, hfin]

/-- C1 witness: the statement `2+3*4;` is well formed, its mathematical
value is `14`, and the evaluator produces exactly `14` on it. -/
theorem claim_C1_witness :
    wfA (.add (.lit [2] []) (.mul (.lit [3] []) (.lit [4] []))) = true ∧
    specEval (.add (.lit [2] []) (.mul (.lit [3] []) (.lit [4] []))) =
      some 14 ∧
    ∃ f, statement f
        ⟨⟨none,
          renderE (.add (.lit [2] []) (.mul (.lit [3] []) (.lit [4] []))) ++
            [';']⟩, ([] : List Variable)⟩ =
      .ok 14 ⟨⟨some (Token.ofKind ';'), []⟩, []⟩ :=
  ⟨by decide, by decide,
   claim_C1 (.add (.lit [2] []) (.mul (.lit [3] []) (.lit [4] [])))
     (by decide) 14 (by decide) []⟩


end
